import Mathlib

/-!
A shallow embedding of `r2o.py`, a converter from Roam's JSON export to
Obsidian-flavoured markdown, together with proofs about its reference
scanning, inline reference resolution, indexing, title normalization and
rendering passes.

Python strings are modelled as `List Char`; Python's `dict` as a function
built from an insertion log (later insertions win); Python's `set` as a
`Finset`.  `while` loops that are not structurally bounded carry a fuel
argument and return `Option`: `none` means the Python code either never
returns or raises, `some` faithfully reproduces a returning run.
-/

abbrev Str := List Char

/-- The two brace characters, written via their code points. -/
def lbrace : Char := Char.ofNat 123

def rbrace : Char := Char.ofNat 125

/-- `.{9}`-style wildcard of Python's `re` without DOTALL: any char but newline. -/
def isDot (c : Char) : Bool := c ≠ '\n'

/-- Shape of the three block-reference regexes of `r2o.py`: a literal group 1,
a 9-character wildcard group 2, and a literal group 3. -/
structure PatShape where
  pre : Str
  sufx : Str

/-- `re_blockembed`, groups `(\x7b\x7bembed: \(\()(.{9})(\)\)\x7d\x7d)`. -/
def embedShape : PatShape :=
  ⟨lbrace :: lbrace :: "embed: ((".data, ')' :: ')' :: rbrace :: [rbrace]⟩

/-- `re_blockmentions`, groups `(\x7b\x7bmentions: \(\()(.{9})(\)\)\x7d\x7d)`. -/
def mentionShape : PatShape :=
  ⟨lbrace :: lbrace :: "mentions: ((".data, ')' :: ')' :: rbrace :: [rbrace]⟩

/-- `re_blockref`, groups `(\(\()(.{9})(\)\))`. -/
def refShape : PatShape := ⟨"((".data, "))".data⟩

/-- Does the pattern `p` match in `s` at position `i`?  These regexes are
deterministic: a literal, then exactly 9 non-newline characters, then a
literal. -/
def matchAt (p : PatShape) (s : Str) (i : Nat) : Bool :=
  decide ((s.drop i).take p.pre.length = p.pre) &&
    (((s.drop (i + p.pre.length)).take 9).length == 9) &&
    ((s.drop (i + p.pre.length)).take 9).all isDot &&
    decide ((s.drop (i + p.pre.length + 9)).take p.sufx.length = p.sufx)

/-- Scan positions `i, i+1, ...` (at most `fuel` of them) for the first match. -/
def searchAux (p : PatShape) (s : Str) : Nat → Nat → Option Nat
  | _, 0 => none
  | i, fuel + 1 => if matchAt p s i then some i else searchAux p s (i + 1) fuel

/-- `p.search(s, pos=sp)`: position of the leftmost match starting at or after
`sp`.  Since a match needs `i + |pre| + 9 + |sufx| ≤ |s|`, scanning positions
up to `|s|` is exhaustive. -/
def searchPat (p : PatShape) (s : Str) (sp : Nat) : Option Nat :=
  searchAux p s sp (s.length + 1 - sp)

theorem searchAux_some {p : PatShape} {s : Str} :
    ∀ {i f j : Nat}, searchAux p s i f = some j →
      i ≤ j ∧ j < i + f ∧ matchAt p s j = true ∧
        ∀ k, i ≤ k → k < j → matchAt p s k = false := by
  intro i f
  induction f generalizing i with
  | zero => intro j h; simp [searchAux] at h
  | succ f ih =>
    intro j h
    by_cases hm : matchAt p s i = true
    · simp [searchAux, hm] at h
      subst h
      exact ⟨Nat.le_refl _, by omega, hm, fun k hk hk' => absurd hk' (by omega)⟩
    · simp [searchAux, hm] at h
      obtain ⟨h1, h2, h3, h4⟩ := ih h
      refine ⟨by omega, by omega, h3, fun k hk hk' => ?_⟩
      rcases Nat.eq_or_lt_of_le hk with rfl | hlt
      · exact Bool.eq_false_iff.mpr hm
      · exact h4 k hlt hk'

theorem searchAux_none {p : PatShape} {s : Str} :
    ∀ {i f : Nat}, searchAux p s i f = none →
      ∀ k, i ≤ k → k < i + f → matchAt p s k = false := by
  intro i f
  induction f generalizing i with
  | zero => intro _ k hk hk'; omega
  | succ f ih =>
    intro h k hk hk'
    by_cases hm : matchAt p s i = true
    · simp [searchAux, hm] at h
    · simp [searchAux, hm] at h
      rcases Nat.eq_or_lt_of_le hk with rfl | hlt
      · exact Bool.eq_false_iff.mpr hm
      · exact ih h k hlt (by omega)

/-- A match needs the whole pattern inside the string. -/
theorem matchAt_bounds {p : PatShape} {s : Str} {i : Nat}
    (h : matchAt p s i = true) :
    i + p.pre.length + 9 + p.sufx.length ≤ s.length := by
  simp only [matchAt, Bool.and_eq_true, decide_eq_true_eq, beq_iff_eq] at h
  obtain ⟨⟨⟨h1, h2⟩, _⟩, h4⟩ := h
  have l1 : ((s.drop i).take p.pre.length).length = p.pre.length := by rw [h1]
  have l2 : ((s.drop (i + p.pre.length + 9)).take p.sufx.length).length
      = p.sufx.length := by rw [h4]
  simp [List.length_take, List.length_drop] at l1 l2 h2
  omega

theorem searchPat_some {p : PatShape} {s : Str} {sp j : Nat}
    (h : searchPat p s sp = some j) :
    sp ≤ j ∧ matchAt p s j = true ∧
      ∀ k, sp ≤ k → k < j → matchAt p s k = false := by
  obtain ⟨h1, _, h3, h4⟩ := searchAux_some h
  exact ⟨h1, h3, h4⟩

theorem searchPat_none {p : PatShape} {s : Str} {sp : Nat}
    (h : searchPat p s sp = none) :
    ∀ k, sp ≤ k → matchAt p s k = false := by
  intro k hk
  by_cases hb : k < sp + (s.length + 1 - sp)
  · exact searchAux_none h k hk hb
  · by_contra hm
    have := matchAt_bounds (Bool.of_not_eq_false hm)
    omega

/-- If some position at or after `sp` matches, the search succeeds. -/
theorem searchPat_isSome {p : PatShape} {s : Str} {sp j : Nat}
    (hle : sp ≤ j) (hm : matchAt p s j = true) :
    (searchPat p s sp).isSome := by
  cases h : searchPat p s sp with
  | some _ => rfl
  | none => exact absurd (searchPat_none h j hle) (by simp [hm])

/-- Which of the three regexes produced a match. -/
inductive RefKind : Type where
  | embed : RefKind
  | mention : RefKind
  | ref : RefKind
deriving DecidableEq, Repr

def shapeOf : RefKind → PatShape
  | .embed => embedShape
  | .mention => mentionShape
  | .ref => refShape

/-- A match object: the regex that fired and the start position (`m.start(1)`). -/
structure BMatch where
  kind : RefKind
  pos : Nat
deriving DecidableEq, Repr

/-- `m.end(2)`: one past the 9-character id group. -/
def mEnd2 (m : BMatch) : Nat := m.pos + (shapeOf m.kind).pre.length + 9

/-- `m.end(3)`: one past the whole match. -/
def mEnd3 (m : BMatch) : Nat := mEnd2 m + (shapeOf m.kind).sufx.length

/-- `m.group(2)`: the 9-character id token. -/
def mUid (s : Str) (m : BMatch) : Str :=
  (s.drop (m.pos + (shapeOf m.kind).pre.length)).take 9

/-- `find_blockrefs`: search for an embed-form match anywhere in the remainder;
only if none exists fall back to mentions, then to plain references. -/
def find_blockrefs (s : Str) (sp : Nat) : Option BMatch × Bool :=
  match searchPat embedShape s sp with
  | some i => (some ⟨.embed, i⟩, true)
  | none =>
    match searchPat mentionShape s sp with
    | some i => (some ⟨.mention, i⟩, false)
    | none =>
      match searchPat refShape s sp with
      | some i => (some ⟨.ref, i⟩, false)
      | none => (none, false)

/-- C4. Priority is by form, not position: if the remainder from the cursor
contains a plain-reference (or mention) match at position `i` and the leftmost
embed match sits at a strictly later position `j`, `find_blockrefs` still
returns the embed match at `j`, flagged `is_embed = true`, so the resolver
rewrites the embed occurrence first. -/
theorem spec_C4_thm (s : Str) (sp i j : Nat)
    (hsp : sp ≤ i) (hij : i < j)
    (hearly : matchAt refShape s i = true ∨ matchAt mentionShape s i = true)
    (hem : matchAt embedShape s j = true)
    (hleft : ∀ k, k < j → sp ≤ k → matchAt embedShape s k = false) :
    find_blockrefs s sp = (some ⟨.embed, j⟩, true) := by
  have hs : searchPat embedShape s sp = some j := by
    cases h : searchPat embedShape s sp with
    | none => exact absurd (searchPat_none h j (by omega)) (by simp [hem])
    | some j' =>
      obtain ⟨h1, h2, h3⟩ := searchPat_some h
      have hn1 : ¬ j' < j := fun hlt => by simp [hleft j' hlt h1] at h2
      have hn2 : ¬ j < j' := fun hlt => by
        have := h3 j (by omega) hlt; simp [hem] at this
      have : j' = j := by omega
      rw [this]
  simp [find_blockrefs, hs]

/-- A block of Roam's JSON format: `uid`, `string`, optional `heading`,
children (`children` absent is modelled as `[]`). -/
inductive Block : Type where
  | mk : Str → Str → Option Nat → List Block → Block

def Block.uid : Block → Str
  | .mk u _ _ _ => u

def Block.str : Block → Str
  | .mk _ s _ _ => s

def Block.heading : Block → Option Nat
  | .mk _ _ h _ => h

def Block.children : Block → List Block
  | .mk _ _ _ c => c

/-- An `ExtendedBlock`: a block with its owning page attached.  Only the page's
`title` is ever read from the back-reference (`r_block["page"]["title"]`), so
the attached page is modelled by its title. -/
inductive EBlock : Type where
  | mk : Str → Str → Option Nat → List EBlock → Str → EBlock

def EBlock.uid : EBlock → Str
  | .mk u _ _ _ _ => u

def EBlock.str : EBlock → Str
  | .mk _ s _ _ _ => s

def EBlock.heading : EBlock → Option Nat
  | .mk _ _ h _ _ => h

def EBlock.children : EBlock → List EBlock
  | .mk _ _ _ c _ => c

def EBlock.pageTitle : EBlock → Str
  | .mk _ _ _ _ t => t

mutual

/-- Attach the owning page (`block["page"] = page`), recursively, as the
in-place mutation of `scan_blocks` does by the end of the indexing pass. -/
def extendBlock (pt : Str) : Block → EBlock
  | .mk u s h c => .mk u s h (extendBlocks pt c) pt

def extendBlocks (pt : Str) : List Block → List EBlock
  | [] => []
  | b :: bs => extendBlock pt b :: extendBlocks pt bs

end

mutual

/-- `scan_blocks`, as its insertion log: for each block, first the block's own
`(uid, block)` entry, then the entries of its children, then the following
siblings — pre-order, depth-first. -/
def scan_blocks (pt : Str) : List Block → List (Str × EBlock)
  | [] => []
  | b :: bs => scan_block pt b ++ scan_blocks pt bs

def scan_block (pt : Str) : Block → List (Str × EBlock)
  | .mk u s h c => (u, extendBlock pt (.mk u s h c)) :: scan_blocks pt c

end

/-- `uid2block`, Python's `dict`, as a lookup function. -/
abbrev Dict := Str → Option EBlock

/-- `d[k] = v`: later insertions overwrite earlier ones. -/
def dinsert (d : Dict) (k : Str) (v : EBlock) : Dict :=
  fun k' => if k' = k then some v else d k'

def emptyDict : Dict := fun _ => none

/-- Replay an insertion log into a `dict`; `dict.update` is log concatenation. -/
def dofLog (l : List (Str × EBlock)) : Dict :=
  l.foldl (fun d e => dinsert d e.1 e.2) emptyDict

/-- A page after pass 1's title handling: its (already normalized) title and
its root blocks. -/
structure PPage where
  title : Str
  children : List Block

/-- The insertion log of the whole indexing pass (pass 1), pages in input
order. -/
def fullLog (pages : List PPage) : List (Str × EBlock) :=
  (pages.map fun p => scan_blocks p.title p.children).flatten

/-- The `uid2block` index after pass 1. -/
def mainIndex (pages : List PPage) : Dict := dofLog (fullLog pages)

/-- Pre-order, depth-first traversal of a block forest. -/
def preB : List Block → List Block
  | [] => []
  | .mk u s h c :: bs => .mk u s h c :: (preB c ++ preB bs)

/-- The document traversal order: pages in input order, blocks in pre-order
within a page, each paired with its page's title. -/
def docPre (pages : List PPage) : List (Str × Block) :=
  (pages.map fun p => (preB p.children).map fun b => (p.title, b)).flatten

theorem scan_blocks_eq_preB (pt : Str) :
    ∀ bs : List Block,
      scan_blocks pt bs = (preB bs).map fun b => (b.uid, extendBlock pt b)
  | [] => by simp [scan_blocks, preB]
  | .mk u s h c :: bs => by
    have ihc := scan_blocks_eq_preB pt c
    have ihs := scan_blocks_eq_preB pt bs
    simp [scan_blocks, scan_block, preB, ihc, ihs, Block.uid]

theorem foldl_dinsert_lookup :
    ∀ (l : List (Str × EBlock)) (d : Dict) (k : Str),
      (l.foldl (fun d e => dinsert d e.1 e.2) d) k =
        match (l.filter fun e => decide (e.1 = k)).getLast? with
        | some e => some e.2
        | none => d k := by
  intro l
  induction l with
  | nil => intro d k; rfl
  | cons e l ih =>
    intro d k
    by_cases hk : e.1 = k
    · have hf : (e :: l).filter (fun e => decide (e.1 = k))
          = e :: l.filter (fun e => decide (e.1 = k)) := by
        simp [List.filter, hk]
      rw [List.foldl_cons, ih, hf]
      cases hL : l.filter (fun e => decide (e.1 = k)) with
      | nil => simp [dinsert, hk]
      | cons e' L =>
        rw [List.getLast?_cons_cons]
        cases h2 : (e' :: L).getLast? with
        | none => simp at h2
        | some x => rfl
    · have hf : (e :: l).filter (fun e => decide (e.1 = k))
          = l.filter (fun e => decide (e.1 = k)) := by
        simp [List.filter, hk]
      rw [List.foldl_cons, ih, hf]
      cases hL : l.filter (fun e => decide (e.1 = k)) with
      | nil =>
        have : dinsert d e.1 e.2 k = d k := by
          unfold dinsert
          rw [if_neg (fun h => hk h.symm)]
        simp [this]
      | cons e' L => rfl

theorem fullLog_eq_docPre (pages : List PPage) :
    fullLog pages =
      (docPre pages).map fun e => ((e.2).uid, extendBlock e.1 e.2) := by
  induction pages with
  | nil => rfl
  | cons p ps ih =>
    simp [fullLog, docPre] at ih ⊢
    rw [scan_blocks_eq_preB, ih]
    rfl

/-- C9.  Index completeness with last-write-wins: the indexing pass visits
every block exactly once, in document traversal order (pages in input order,
blocks in pre-order within a page), attaching the owning page to each visited
block; and for every uid the index maps it to the *last* block with that uid
in traversal order (with its page attached) — `none` only for uids that occur
nowhere.  In particular, for a block `B` whose uid is not duplicated later,
`uid2block[B.uid]` is `B` itself (page attached).  Duplicates raise nothing:
all functions involved are total. -/
theorem spec_C9_thm (pages : List PPage) (u : Str) :
    fullLog pages =
      ((docPre pages).map fun e => ((e.2).uid, extendBlock e.1 e.2))
    ∧ mainIndex pages u =
        (((docPre pages).filter fun e => decide ((e.2).uid = u)).getLast?).map
          (fun e => extendBlock e.1 e.2) := by
  refine ⟨fullLog_eq_docPre pages, ?_⟩
  show dofLog (fullLog pages) u = _
  rw [dofLog, foldl_dinsert_lookup, fullLog_eq_docPre]
  rw [List.filter_map, List.getLast?_map]
  have hc : ((fun e => decide (e.1 = u)) ∘
      fun e : Str × Block => ((e.2).uid, extendBlock e.1 e.2))
      = fun e : Str × Block => decide ((e.2).uid = u) := by
    funext e; rfl
  rw [hc]
  cases ((docPre pages).filter fun e => decide ((e.2).uid = u)).getLast? with
  | none => rfl
  | some e => rfl

/-- Title sanitization (lines 88-94): `:` becomes ` -`. -/
def replaceColon : Str → Str
  | [] => []
  | c :: cs => (if c = ':' then ' ' :: ['-'] else [c]) ++ replaceColon cs

/-- Title sanitization: `:` → ` -`, then delete `"`, `^` and `\`. -/
def sanitizeTitle (t : Str) : Str :=
  (((replaceColon t).filter (· != '"')).filter (· != '^')).filter (· != '\\')

def monthNames : List (Str × Nat) :=
  [("January".data, 1), ("February".data, 2), ("March".data, 3),
   ("April".data, 4), ("May".data, 5), ("June".data, 6), ("July".data, 7),
   ("August".data, 8), ("September".data, 9), ("October".data, 10),
   ("November".data, 11), ("December".data, 12)]

def isLowerAZ (c : Char) : Bool := decide ('a' ≤ c ∧ c ≤ 'z')

/-- After the greedy `[0-9]+` run: `[a-z]{2}`, then `", "`, then `[0-9]{4}`.
(`[0-9]+` is deterministic here: a shorter run would put a digit where
`[a-z]{2}` must match.) -/
def dailyAfterDigits (r : Str) : Bool :=
  match r with
  | c1 :: c2 :: rest =>
    isLowerAZ c1 && isLowerAZ c2 && decide (rest.take 2 = ", ".data) &&
      (((rest.drop 2).take 4).length == 4) &&
      ((rest.drop 2).take 4).all Char.isDigit
  | _ => false

/-- `re_daily.match(title)`: an *anchored prefix* match of
`(January|...|December) ([0-9]+)[a-z]\x7b2\x7d, ([0-9]\x7b4\x7d)` — trailing
text after the year is allowed. -/
def re_daily_match (t : Str) : Bool :=
  monthNames.any fun mn =>
    decide (t.take mn.1.length = mn.1) &&
      (match t.drop mn.1.length with
       | ' ' :: r2 =>
         let ds := r2.takeWhile Char.isDigit
         decide (1 ≤ ds.length) && dailyAfterDigits (r2.drop ds.length)
       | _ => false)

def digitsVal (l : Str) : Nat := l.foldl (fun a c => a * 10 + (c.toNat - 48)) 0

def isLeap (y : Nat) : Bool := y % 4 == 0 && (y % 100 != 0 || y % 400 == 0)

def daysInMonth (m y : Nat) : Nat :=
  if m = 2 then (if isLeap y then 29 else 28)
  else if m = 4 ∨ m = 6 ∨ m = 9 ∨ m = 11 then 30
  else 31

def ordSuffixes : List Str := ["st".data, "nd".data, "rd".data, "th".data]

def pad2 (n : Nat) : Str :=
  if n < 10 then '0' :: Nat.toDigits 10 n else Nat.toDigits 10 n

/-- Modelled from the spec: the external `dateutil.parser.parse` collaborator
(a third-party library, not part of this repository), restricted to the
long-form calendar titles the spec describes ("Month Day(suffix), Year",
§4.1), followed by `isoformat().split("T")[0]`.  It accepts a string that
consists *entirely* of such a date with a valid day-of-month and returns the
canonical `YYYY-MM-DD`; on unparsed trailing tokens or an out-of-range day it
raises (modelled as `none`). -/
def dateutil_parse (s : Str) : Option Str :=
  monthNames.findSome? fun mn =>
    if s.take mn.1.length = mn.1 then
      match s.drop mn.1.length with
      | ' ' :: r2 =>
        let ds := r2.takeWhile Char.isDigit
        let rest := r2.drop ds.length
        if 1 ≤ ds.length ∧ rest.take 2 ∈ ordSuffixes
            ∧ (rest.drop 2).take 2 = ", ".data
            ∧ (rest.drop 4).length = 4 ∧ (rest.drop 4).all Char.isDigit
            ∧ 1 ≤ digitsVal ds
            ∧ digitsVal ds ≤ daysInMonth mn.2 (digitsVal (rest.drop 4))
        then some (rest.drop 4 ++ ('-' :: pad2 mn.2) ++ ('-' :: pad2 (digitsVal ds)))
        else none
      | _ => none
    else none

/-- The Title Normalizer (lines 87-106): sanitize; if the sanitized title has
a `re_daily` prefix match, the page is daily and the *whole* title is handed
to the date parser (whose exception, modelled as `none`, propagates);
otherwise the sanitized title is kept, not daily. -/
def normalizeTitle (raw : Str) : Option (Str × Bool) :=
  let t := sanitizeTitle raw
  if re_daily_match t then (dateutil_parse t).map fun iso => (iso, true)
  else some (t, false)

/-- C6.  The Title Normalizer is *not* total: the date pattern is only
matched as a prefix, but the full title is then parsed as a date.  The title
`"March 3rd, 2023: notes"` sanitizes to `"March 3rd, 2023 - notes"`, which
matches the daily pattern as a prefix, and the date parser then raises on the
trailing ` - notes` — the conversion run crashes instead of producing a title
string. -/
theorem spec_C6_thm :
    re_daily_match (sanitizeTitle "March 3rd, 2023: notes".data) = true
    ∧ normalizeTitle "March 3rd, 2023: notes".data = none := by decide

/-- The character set that group 2 of `re_daylink` actually begins with: the
bracket right after `(` opens a character *class* running to the first `]`
(inside `[0-9`), so it holds the month-name letters, `|`, the space, `[` and
the digit range — not alternation of month names. -/
def isDayC (c : Char) : Bool :=
  c.isDigit || (" ADFJMNOS[abceghilmnoprstuvy|".data.contains c)

/-- Does `re_daylink` match at `i` when its `+` consumes exactly `k` chars?
After `[[` come `k ≥ 1` class chars, `[a-z]\x7b2\x7d`, `", "`,
`[0-9]\x7b4\x7d`, `]]`. -/
def dayFits (s : Str) (i k : Nat) : Bool :=
  decide (1 ≤ k) && (((s.drop (i + 2)).take k).length == k) &&
    ((s.drop (i + 2)).take k).all isDayC &&
    (match (s.drop (i + 2 + k)).take 2 with
     | [c1, c2] => isLowerAZ c1 && isLowerAZ c2
     | _ => false) &&
    decide ((s.drop (i + 4 + k)).take 2 = ", ".data) &&
    (((s.drop (i + 6 + k)).take 4).length == 4) &&
    ((s.drop (i + 6 + k)).take 4).all Char.isDigit &&
    decide ((s.drop (i + 10 + k)).take 2 = ']' :: [']'])

/-- The match of `re_daylink` at position `i`, if any: `[[` must sit at `i`
and the greedy `+` takes the largest workable count. -/
def matchDaylinkAt (s : Str) (i : Nat) : Option Nat :=
  if (s.drop i).take 2 = '[' :: ['['] then
    ((List.range (s.length + 1)).filter (dayFits s i)).getLast?
  else none

def searchDayAux (s : Str) : Nat → Nat → Option (Nat × Nat)
  | _, 0 => none
  | i, f + 1 =>
    match matchDaylinkAt s i with
    | some k => some (i, k)
    | none => searchDayAux s (i + 1) f

/-- `re_daylink.search(new_s)`: leftmost match, as (position, count). -/
def searchDaylink (s : Str) : Option (Nat × Nat) :=
  searchDayAux s 0 (s.length + 1)

/-- `replace_daylinks` (lines 304-317): repeatedly rewrite the leftmost
day-link's date portion to ISO form.  `m.end(1) = i+2`,
`m.group(2) = s[i+2 : i+2+k+8]`, `m.end(0) = i+k+12`.  The date parser's
exception propagates (`none`); fuel exhaustion is also `none`. -/
def replace_daylinks : Nat → Str → Option Str
  | 0, _ => none
  | f + 1, s =>
    match searchDaylink s with
    | none => some s
    | some (i, k) =>
      match dateutil_parse ((s.drop (i + 2)).take (k + 8)) with
      | none => none
      | some iso =>
        replace_daylinks f
          (s.take (i + 2) ++ iso ++ (']' :: [']']) ++ s.drop (i + k + 12))

/-- The loop of `get_referenced_uids` (lines 276-289): find the next match
(embed priority), add its id if indexed, continue from `m.end(2)`.  The
cursor strictly increases, so `|s| + 1` steps of fuel are exhaustive (see
`get_aux_stable`). -/
def get_aux (idx : Dict) (s : Str) : Nat → Nat → Finset Str → Finset Str
  | 0, _, refs => refs
  | f + 1, sp, refs =>
    match find_blockrefs s sp with
    | (none, _) => refs
    | (some m, _) =>
      let uid := mUid s m
      get_aux idx s f (mEnd2 m)
        (if (idx uid).isSome then insert uid refs else refs)

def get_referenced_uids (idx : Dict) (s : Str) (refs : Finset Str) : Finset Str :=
  get_aux idx s (s.length + 1) 0 refs

/-- The ids of the matches that the scanning search *selects*, in order: the
match chosen by `find_blockrefs` at the cursor, then the ones after
`m.end(2)`, and so on. -/
def selAux (s : Str) : Nat → Nat → List Str
  | 0, _ => []
  | f + 1, sp =>
    match find_blockrefs s sp with
    | (none, _) => []
    | (some m, _) => mUid s m :: selAux s f (mEnd2 m)

def selUids (s : Str) : List Str := selAux s (s.length + 1) 0

/-- The loop of `render_blockrefs` (lines 242-273).  On an unknown id the
cursor jumps past the id token; on a known id the match span is replaced
(embed or aliased link built from the target block) and the search restarts
at the same cursor over the new string.  When no match remains the string
goes through `replace_daylinks`.  This loop need not terminate; fuel
exhaustion is `none`. -/
def render_go (idx : Dict) (df : Nat) : Nat → Str → Nat → Finset Str → Option (Str × Finset Str)
  | 0, _, _, _ => none
  | bf + 1, s, sp, refs =>
    match find_blockrefs s sp with
    | (none, _) => (replace_daylinks df s).map fun t => (t, refs)
    | (some m, is_em) =>
      let uid := mUid s m
      match idx uid with
      | none => render_go idx df bf s (mEnd2 m) refs
      | some rb =>
        let safeId := (rb.uid).filter (· != '_')
        let repl :=
          if is_em then
            '!' :: '[' :: '[' ::
              (rb.pageTitle ++ ('#' :: '^' :: safeId) ++ (']' :: [']']))
          else
            '[' :: '[' ::
              (rb.pageTitle ++ ('#' :: '^' :: safeId) ++ ('|' :: rb.str)
                ++ (']' :: [']']))
        render_go idx df bf (s.take m.pos ++ repl ++ s.drop (mEnd3 m)) sp
          (insert uid refs)

def render_blockrefs (idx : Dict) (bf df : Nat) (s : Str) (refs : Finset Str) :
    Option (Str × Finset Str) :=
  render_go idx df bf s 0 refs

/-- A selected match lies at or after the cursor and fits inside the string;
in particular the new cursor `m.end(2)` strictly advances yet stays `≤ |s|`. -/
theorem find_some_bounds {s : Str} {sp : Nat} {m : BMatch} {e : Bool}
    (h : find_blockrefs s sp = (some m, e)) :
    sp < mEnd2 m ∧ mEnd2 m ≤ s.length ∧ mEnd3 m ≤ s.length
      ∧ sp ≤ m.pos ∧ matchAt (shapeOf m.kind) s m.pos = true := by
  unfold find_blockrefs at h
  cases h1 : searchPat embedShape s sp with
  | some i =>
    rw [h1] at h
    obtain ⟨hle, hm, -⟩ := searchPat_some h1
    cases h; have hb := matchAt_bounds hm
    refine ⟨?_, ?_, ?_, hle, hm⟩ <;> simp [mEnd2, mEnd3, shapeOf] at * <;> omega
  | none =>
    rw [h1] at h
    cases h2 : searchPat mentionShape s sp with
    | some i =>
      rw [h2] at h
      obtain ⟨hle, hm, -⟩ := searchPat_some h2
      cases h; have hb := matchAt_bounds hm
      refine ⟨?_, ?_, ?_, hle, hm⟩ <;> simp [mEnd2, mEnd3, shapeOf] at * <;> omega
    | none =>
      rw [h2] at h
      cases h3 : searchPat refShape s sp with
      | some i =>
        rw [h3] at h
        obtain ⟨hle, hm, -⟩ := searchPat_some h3
        cases h; have hb := matchAt_bounds hm
        refine ⟨?_, ?_, ?_, hle, hm⟩ <;> simp [mEnd2, mEnd3, shapeOf] at * <;> omega
      | none => rw [h3] at h; cases h

/-- `|s| + 1 - sp` steps of fuel are exhaustive for the scanning loop: more
fuel never changes the result (the cursor strictly increases and a match
needs `m.end(2) ≤ |s|`). -/
theorem get_aux_stable (idx : Dict) (s : Str) :
    ∀ (f sp : Nat) (refs : Finset Str), s.length + 1 ≤ f + sp →
      get_aux idx s f sp refs = get_aux idx s (f + 1) sp refs := by
  intro f
  induction f with
  | zero =>
    intro sp refs hb
    cases hf : find_blockrefs s sp with
    | mk om e =>
      cases om with
      | none => simp [get_aux, hf]
      | some m =>
        obtain ⟨h1, h2, -⟩ := find_some_bounds hf
        omega
  | succ f ih =>
    intro sp refs hb
    cases hf : find_blockrefs s sp with
    | mk om e =>
      cases om with
      | none => simp [get_aux, hf]
      | some m =>
        obtain ⟨h1, h2, -⟩ := find_some_bounds hf
        simp only [get_aux, hf]
        exact ih (mEnd2 m) _ (by omega)

theorem get_aux_mono (idx : Dict) (s : Str) :
    ∀ (f sp : Nat) (refs : Finset Str), refs ⊆ get_aux idx s f sp refs := by
  intro f
  induction f with
  | zero => intro sp refs; exact Finset.Subset.refl _
  | succ f ih =>
    intro sp refs
    cases hf : find_blockrefs s sp with
    | mk om e =>
      cases om with
      | none => simp [get_aux, hf]
      | some m =>
        simp only [get_aux, hf]
        refine Finset.Subset.trans ?_ (ih _ _)
        by_cases hi : (idx (mUid s m)).isSome <;>
          simp [hi, Finset.subset_insert]

theorem get_aux_mem (idx : Dict) (s : Str) :
    ∀ (f sp : Nat) (refs : Finset Str) (u : Str),
      u ∈ get_aux idx s f sp refs → u ∈ refs ∨ (idx u).isSome := by
  intro f
  induction f with
  | zero => intro sp refs u h; exact Or.inl h
  | succ f ih =>
    intro sp refs u h
    cases hf : find_blockrefs s sp with
    | mk om e =>
      cases om with
      | none => rw [get_aux] at h; rw [hf] at h; exact Or.inl h
      | some m =>
        simp only [get_aux, hf] at h
        rcases ih _ _ _ h with hin | hs
        · by_cases hi : (idx (mUid s m)).isSome
          · simp [hi, Finset.mem_insert] at hin
            rcases hin with rfl | hin
            · exact Or.inr hi
            · exact Or.inl hin
          · simp [hi] at hin; exact Or.inl hin
        · exact Or.inr hs

/-- Every id selected by the scanning search whose target is indexed ends up
in the referenced set. -/
theorem get_aux_covers (idx : Dict) (s : Str) :
    ∀ (f sp : Nat) (refs : Finset Str) (u : Str),
      u ∈ selAux s f sp → (idx u).isSome → u ∈ get_aux idx s f sp refs := by
  intro f
  induction f with
  | zero => intro sp refs u h; simp [selAux] at h
  | succ f ih =>
    intro sp refs u h hu
    cases hf : find_blockrefs s sp with
    | mk om e =>
      cases om with
      | none => simp only [selAux, hf] at h; simp at h
      | some m =>
        simp only [selAux, hf] at h
        simp only [get_aux, hf]
        rcases List.mem_cons.mp h with rfl | htl
        · refine get_aux_mono idx s f (mEnd2 m) _ ?_
          simp [hu, Finset.mem_insert]
        · exact ih _ _ _ htl hu

theorem render_go_mono (idx : Dict) (df : Nat) :
    ∀ (bf : Nat) (s : Str) (sp : Nat) (refs : Finset Str) (out : Str)
      (refs' : Finset Str),
      render_go idx df bf s sp refs = some (out, refs') → refs ⊆ refs' := by
  intro bf
  induction bf with
  | zero => intro s sp refs out refs' h; simp [render_go] at h
  | succ bf ih =>
    intro s sp refs out refs' h
    cases hf : find_blockrefs s sp with
    | mk om e =>
      cases om with
      | none =>
        simp only [render_go, hf] at h
        cases hd : replace_daylinks df s with
        | none => rw [hd] at h; simp at h
        | some t =>
          rw [hd] at h; simp at h; rw [← h.2]
      | some m =>
        simp only [render_go, hf] at h
        cases hi : idx (mUid s m) with
        | none => rw [hi] at h; exact ih _ _ _ _ _ h
        | some rb =>
          rw [hi] at h
          exact Finset.Subset.trans (Finset.subset_insert _ _) (ih _ _ _ _ _ h)

theorem render_go_mem (idx : Dict) (df : Nat) :
    ∀ (bf : Nat) (s : Str) (sp : Nat) (refs : Finset Str) (out : Str)
      (refs' : Finset Str),
      render_go idx df bf s sp refs = some (out, refs') →
        ∀ u ∈ refs', u ∈ refs ∨ (idx u).isSome := by
  intro bf
  induction bf with
  | zero => intro s sp refs out refs' h; simp [render_go] at h
  | succ bf ih =>
    intro s sp refs out refs' h u hu
    cases hf : find_blockrefs s sp with
    | mk om e =>
      cases om with
      | none =>
        simp only [render_go, hf] at h
        cases hd : replace_daylinks df s with
        | none => rw [hd] at h; simp at h
        | some t =>
          rw [hd] at h; simp at h; rw [← h.2] at hu; exact Or.inl hu
      | some m =>
        simp only [render_go, hf] at h
        cases hi : idx (mUid s m) with
        | none => rw [hi] at h; exact ih _ _ _ _ _ h u hu
        | some rb =>
          rw [hi] at h
          rcases ih _ _ _ _ _ h u hu with hin | hs
          · rcases Finset.mem_insert.mp hin with rfl | hin
            · exact Or.inr (by simp [hi])
            · exact Or.inl hin
          · exact Or.inr hs

/-- C10.  `referenced_uids ⊆ keys(uid2block)` is an invariant: both the
scanner (`get_referenced_uids`) and the resolver (`render_blockrefs`) test
`uid in uid2block` before adding, so starting from a set of indexed ids only
indexed ids are ever present. -/
theorem spec_C10_thm (idx : Dict) (s : Str) (refs : Finset Str)
    (hsub : ∀ u ∈ refs, (idx u).isSome) :
    (∀ u ∈ get_referenced_uids idx s refs, (idx u).isSome)
    ∧ ∀ (bf df : Nat) (out : Str) (refs' : Finset Str),
        render_blockrefs idx bf df s refs = some (out, refs') →
          ∀ u ∈ refs', (idx u).isSome := by
  constructor
  · intro u hu
    rcases get_aux_mem idx s _ _ _ _ hu with h | h
    · exact hsub u h
    · exact h
  · intro bf df out refs' h u hu
    rcases render_go_mem idx df bf s 0 refs out refs' h u hu with h' | h'
    · exact hsub u h'
    · exact h'

/-- Fixture: two indexed blocks on a page `P`. -/
def blkB : EBlock := .mk "bbbbbbbbb".data "hi".data none [] "P".data

def blkC : EBlock := .mk "ccccccccc".data "yo".data none [] "P".data

def idxW : Dict :=
  dinsert (dinsert emptyDict "bbbbbbbbb".data blkB) "ccccccccc".data blkC

/-- A block text holding a plain reference to `blkB` *before* an embed of
`blkC`. -/
def strW : Str := "((bbbbbbbbb)) \x7b\x7bembed: ((ccccccccc))\x7d\x7d".data

theorem spec_C10_witness :
    (∀ u ∈ (∅ : Finset Str), (idxW u).isSome)
    ∧ (∀ u ∈ get_referenced_uids idxW strW ∅, (idxW u).isSome) := by
  exact ⟨by simp, (spec_C10_thm idxW strW ∅ (by simp)).1⟩

theorem matchAt_pre_mem {p : PatShape} {s : Str} {i : Nat}
    (h : matchAt p s i = true) : ∀ c ∈ p.pre, c ∈ s := by
  intro c hc
  simp only [matchAt, Bool.and_eq_true, decide_eq_true_eq, beq_iff_eq] at h
  obtain ⟨⟨⟨h1, -⟩, -⟩, -⟩ := h
  rw [← h1] at hc
  exact List.drop_subset _ _ (List.take_subset _ _ hc)

/-- Strings without `\x7b` have no embed and no mention matches. -/
theorem no_brace_no_embed {s : Str} (h : lbrace ∉ s) (sp : Nat) :
    searchPat embedShape s sp = none := by
  cases hs : searchPat embedShape s sp with
  | none => rfl
  | some i =>
    obtain ⟨-, hm, -⟩ := searchPat_some hs
    exact absurd (matchAt_pre_mem hm lbrace (by decide)) h

theorem no_brace_no_mention {s : Str} (h : lbrace ∉ s) (sp : Nat) :
    searchPat mentionShape s sp = none := by
  cases hs : searchPat mentionShape s sp with
  | none => rfl
  | some i =>
    obtain ⟨-, hm, -⟩ := searchPat_some hs
    exact absurd (matchAt_pre_mem hm lbrace (by decide)) h

/-- A plain-reference match starts with two `(` characters. -/
theorem matchAt_ref_head {s : Str} {i : Nat}
    (h : matchAt refShape s i = true) :
    ∃ t, s.drop i = '(' :: '(' :: t := by
  simp only [matchAt, Bool.and_eq_true, decide_eq_true_eq, beq_iff_eq] at h
  obtain ⟨⟨⟨h1, -⟩, -⟩, -⟩ := h
  cases hd : s.drop i with
  | nil => rw [hd] at h1; simp [refShape] at h1
  | cons a t =>
    cases t with
    | nil =>
      rw [hd] at h1
      simp [refShape, List.take] at h1
    | cons b t' =>
      rw [hd] at h1
      simp [refShape, List.take] at h1
      exact ⟨t', by simp [h1.1, h1.2]⟩

/-- The self-referential block: its own text is a plain reference to its own
uid. -/
def coreA : Str := "((aaaaaaaaa))".data

def blkA : EBlock := .mk "aaaaaaaaa".data coreA none [] "P".data

def idxA : Dict := dinsert emptyDict "aaaaaaaaa".data blkA

/-- The head the rewrite wraps around the block text each iteration. -/
def headA : Str := "[[P#^aaaaaaaaa|".data

theorem matchAt_cons (p : PatShape) (a : Char) (s : Str) (i : Nat) :
    matchAt p (a :: s) (i + 1) = matchAt p s i := by
  have e1 : i + 1 + p.pre.length = (i + p.pre.length) + 1 := by omega
  have e2 : i + 1 + p.pre.length + 9 = (i + p.pre.length + 9) + 1 := by omega
  simp [matchAt, e1, e2, List.drop_succ_cons]

theorem matchAt_append_add (p : PatShape) (A X : Str) (k : Nat) :
    matchAt p (A ++ X) (A.length + k) = matchAt p X k := by
  induction A with
  | nil => simp
  | cons a A ih =>
    have e : (a :: A).length + k = (A.length + k) + 1 := by
      simp [List.length_cons]; omega
    rw [List.cons_append, e, matchAt_cons, ih]

theorem matchAt_core0 (B : Str) : matchAt refShape (coreA ++ B) 0 = true := by
  have h2 : (coreA ++ B).drop 2 = coreA.drop 2 ++ B :=
    List.drop_append_of_le_length (by decide)
  have h11 : (coreA ++ B).drop 11 = coreA.drop 11 ++ B :=
    List.drop_append_of_le_length (by decide)
  have t2 : (coreA ++ B).take 2 = coreA.take 2 :=
    List.take_append_of_le_length (by decide)
  have t9 : (coreA.drop 2 ++ B).take 9 = (coreA.drop 2).take 9 :=
    List.take_append_of_le_length (by decide)
  have ts : (coreA.drop 11 ++ B).take 2 = (coreA.drop 11).take 2 :=
    List.take_append_of_le_length (by decide)
  simp [matchAt, refShape, h2, h11, t2, t9, ts, coreA, isDot]

theorem matchAt_core (A B : Str) :
    matchAt refShape (A ++ (coreA ++ B)) A.length = true := by
  have h := matchAt_append_add refShape A (coreA ++ B) 0
  rw [Nat.add_zero] at h
  rw [h, matchAt_core0]

/-- No plain-reference match strictly before `|A|` when `A` has no `(`. -/
theorem no_ref_before {A X : Str} (hA : '(' ∉ A) {k : Nat} (hk : k < A.length) :
    matchAt refShape (A ++ X) k = false := by
  by_contra hm
  obtain ⟨t, ht⟩ := matchAt_ref_head (Bool.of_not_eq_false hm)
  rw [List.drop_append_eq_append_drop] at ht
  cases hd : A.drop k with
  | nil =>
    have := List.length_drop k A
    rw [hd] at this
    simp at this
    omega
  | cons c t' =>
    rw [hd] at ht
    simp at ht
    exact hA (List.drop_subset k A (by rw [hd, ht.1]; exact List.mem_cons_self _ _))

theorem drop_append_add (A X : Str) (k : Nat) :
    (A ++ X).drop (A.length + k) = X.drop k := by
  rw [List.drop_append_eq_append_drop]
  rw [List.drop_of_length_le (by omega)]
  simp

/-- On a string of the shape `A ++ (coreA ++ B)` with no `(` in `A` and no
brace anywhere, `find_blockrefs` selects the plain reference at `|A|`. -/
theorem find_core {A B : Str} (hA1 : '(' ∉ A) (hA2 : lbrace ∉ A)
    (hB2 : lbrace ∉ B) :
    find_blockrefs (A ++ (coreA ++ B)) 0 = (some ⟨.ref, A.length⟩, false) := by
  have hnb : lbrace ∉ A ++ (coreA ++ B) := by
    intro hmem
    rcases List.mem_append.mp hmem with h | h
    · exact hA2 h
    · rcases List.mem_append.mp h with h' | h'
      · exact absurd h' (by decide)
      · exact hB2 h'
  have he := no_brace_no_embed hnb 0
  have hm := no_brace_no_mention hnb 0
  have hs : searchPat refShape (A ++ (coreA ++ B)) 0 = some A.length := by
    cases h : searchPat refShape (A ++ (coreA ++ B)) 0 with
    | none =>
      have := searchPat_none h A.length (Nat.zero_le _)
      rw [matchAt_core] at this
      cases this
    | some j =>
      obtain ⟨-, hmj, hmin⟩ := searchPat_some h
      have hge : ¬ j < A.length := fun hlt => by
        rw [no_ref_before hA1 hlt] at hmj; cases hmj
      have hle : ¬ A.length < j := fun hlt => by
        have h' := hmin A.length (Nat.zero_le _) hlt
        rw [matchAt_core] at h'; cases h'
      have : j = A.length := by omega
      rw [this]
  simp [find_blockrefs, he, hm, hs]

theorem mUid_core (A B : Str) :
    mUid (A ++ (coreA ++ B)) ⟨.ref, A.length⟩ = "aaaaaaaaa".data := by
  show ((A ++ (coreA ++ B)).drop (A.length + (shapeOf .ref).pre.length)).take 9
      = "aaaaaaaaa".data
  rw [show (shapeOf RefKind.ref).pre.length = 2 from rfl, drop_append_add]
  rw [List.drop_append_of_le_length (by decide)]
  rw [List.take_append_of_le_length (by decide)]
  decide

/-- The self-referential rewrite loop: on `A ++ (coreA ++ B)` (no `(` or
brace in `A`/`B`) the resolver replaces the reference by
`[[P#^aaaaaaaaa|((aaaaaaaaa))]]`, reaching a string of the same shape, so no
amount of fuel makes it return. -/
theorem render_go_selfref :
    ∀ (bf : Nat) (A B : Str), '(' ∉ A → lbrace ∉ A → '(' ∉ B → lbrace ∉ B →
      ∀ (df : Nat) (refs : Finset Str),
        render_go idxA df bf (A ++ (coreA ++ B)) 0 refs = none := by
  intro bf
  induction bf with
  | zero => intro A B _ _ _ _ df refs; rfl
  | succ bf ih =>
    intro A B hA1 hA2 hB1 hB2 df refs
    have hf : find_blockrefs (A ++ (coreA ++ B)) 0
        = (some ⟨.ref, A.length⟩, false) := find_core hA1 hA2 hB2
    have hidx : idxA "aaaaaaaaa".data = some blkA := by
      simp [idxA, dinsert]
    simp only [render_go, hf, mUid_core, hidx]
    rw [List.take_left]
    rw [show mEnd3 ⟨.ref, A.length⟩ = A.length + 13 from by
      simp [mEnd3, mEnd2, shapeOf, refShape]]
    rw [drop_append_add]
    rw [show (coreA ++ B).drop 13 = B from by
      rw [List.drop_append_of_le_length (by decide),
        show coreA.drop 13 = ([] : Str) from by decide]
      simp]
    rw [if_neg (show ¬ (false = true) by simp)]
    have key : ∀ Y : Str, Y = headA ++ (coreA ++ [']', ']']) →
        render_go idxA df bf ((A ++ Y) ++ B) 0
          (insert "aaaaaaaaa".data refs) = none := by
      intro Y hY
      subst hY
      have hassoc : (A ++ (headA ++ (coreA ++ [']', ']']))) ++ B
          = (A ++ headA) ++ (coreA ++ (']' :: ']' :: B)) := by
        simp [List.append_assoc]
      rw [hassoc]
      refine ih (A ++ headA) (']' :: ']' :: B) ?_ ?_ ?_ ?_ df _
      · intro h
        rcases List.mem_append.mp h with h | h
        · exact hA1 h
        · exact absurd h (by decide)
      · intro h
        rcases List.mem_append.mp h with h | h
        · exact hA2 h
        · exact absurd h (by decide)
      · intro h
        rcases List.mem_cons.mp h with h | h
        · exact absurd h (by decide)
        · rcases List.mem_cons.mp h with h | h
          · exact absurd h (by decide)
          · exact hB1 h
      · intro h
        rcases List.mem_cons.mp h with h | h
        · exact absurd h (by decide)
        · rcases List.mem_cons.mp h with h | h
          · exact absurd h (by decide)
          · exact hB2 h
    exact key _ (by decide)

/-- C3 (refuted — code bug).  The Inline Reference Resolver does *not*
terminate on every input: on the self-referential block `blkA` (its text
`((aaaaaaaaa))` is a plain reference to its own uid), every rewrite
reintroduces the same reference inside the alias label, so `render_blockrefs`
never reaches a no-match state: it returns `none` for every amount of fuel,
i.e. the Python loop runs forever. -/
theorem spec_C3_thm (bf df : Nat) (refs : Finset Str) :
    render_blockrefs idxA bf df coreA refs = none := by
  have h := render_go_selfref bf [] []
    (by simp) (by simp) (by simp) (by simp) df refs
  simpa using h

/-- Does `pat` occur as a contiguous substring of `s`? -/
def occursIn (pat s : Str) : Bool :=
  (List.range (s.length + 1)).any fun i =>
    decide ((s.drop i).take pat.length = pat)

/-- C8 (amended).  Unknown-reference handling, stated for the step that meets
the unknown id: when the resolver's search selects a markup whose id is
absent from the index, the iteration changes neither the string nor
`referenced_uids` and continues searching from just past the id token
(`m.end(2)`); moreover a returning resolution never adds an id that is
absent from the index.  (The original claim's further conjunct — that the
unknown markup's exact substring always survives into the returned output —
is refuted by the counterexample, where an overlapping markup with a *known*
id is rewritten.) -/
theorem spec_C8_thm (idx : Dict) (s : Str) (sp : Nat) (refs : Finset Str)
    (m : BMatch) (e : Bool) (bf df : Nat)
    (hfind : find_blockrefs s sp = (some m, e))
    (hunk : idx (mUid s m) = none) :
    render_go idx df (bf + 1) s sp refs = render_go idx df bf s (mEnd2 m) refs
    ∧ ∀ (out : Str) (refs' : Finset Str),
        render_go idx df bf s (mEnd2 m) refs = some (out, refs') →
          ∀ u, idx u = none → (u ∈ refs' ↔ u ∈ refs) := by
  constructor
  · simp only [render_go, hfind, hunk]
  · intro out refs' h u hu
    constructor
    · intro hin
      rcases render_go_mem idx df bf s (mEnd2 m) refs out refs' h u hin with h' | h'
      · exact h'
      · simp [hu] at h'
    · intro hin
      exact render_go_mono idx df bf s (mEnd2 m) refs out refs' h hin

/-- A block text that is nothing but a reference to an id absent from `idxW`. -/
def strU : Str := "((unknown01))".data

theorem spec_C8_witness :
    find_blockrefs strU 0 = (some ⟨.ref, 0⟩, false)
    ∧ idxW (mUid strU ⟨.ref, 0⟩) = none
    ∧ render_go idxW 1 (1 + 1) strU 0 ∅
        = render_go idxW 1 1 strU (mEnd2 ⟨.ref, 0⟩) ∅ := by
  refine ⟨by decide, by rfl, ?_⟩
  exact (spec_C8_thm idxW strU 0 ∅ ⟨.ref, 0⟩ false 1 1
    (by decide) (by rfl)).1

/-- The overlap fixture: `strX = ((xy((ABCDE))FG))` holds two *overlapping*
plain-reference markups — one at 0 with id `xy((ABCDE` (indexed) and one at 4
with id `ABCDE))FG` (not indexed). -/
def blkX : EBlock := .mk "xy((ABCDE".data "t".data none [] "P".data

def idxX : Dict := dinsert emptyDict "xy((ABCDE".data blkX

def strX : Str := "((xy((ABCDE))FG))".data

/-- C8 counterexample.  `strX` contains a well-formed reference markup at
position 4 whose id `ABCDE))FG` is absent from the index, yet resolving the
string rewrites the *overlapping* leftmost markup (whose id is indexed) and
the unknown markup's exact substring `((ABCDE))FG))` does not survive into
the returned output — the claim's "leaves that exact markup substring
unchanged" fails. -/
theorem spec_C8_cex :
    matchAt refShape strX 4 = true
    ∧ (idxX (mUid strX ⟨.ref, 4⟩)).isSome = false
    ∧ (render_blockrefs idxX 3 1 strX ∅).map
        (fun r => occursIn ("((ABCDE))FG))".data) r.1) = some false := by
  decide

/-- Python's `s.replace("\n", "\n" + ind)`: the pattern is one character, so
the replacement acts char by char. -/
def expandNl (ind : Str) : Str → Str
  | [] => []
  | c :: cs => (if c = '\n' then '\n' :: ind else [c]) ++ expandNl ind cs

/-- The `prefix` variable of lines 201-208: tabs for the level, the list
marker, and the heading marker when present. -/
def prefOf (level : Nat) (h : Option Nat) : Str :=
  ((if 1 ≤ level then List.replicate level '\t' else []) ++ "- ".data)
    ++ (match h with
        | some hl => List.replicate hl '#' ++ [' ']
        | none => [])

/-- Lines 199-224 in render mode, given the already-resolved text `s'`: glue
`prefix`, text and the anchor `postfix` (present iff the uid is in
`referenced_uids` *now*), then re-indent continuation lines when the result
holds a newline and terminate it with one. -/
def renderLine (level : Nat) (b : EBlock) (s' : Str) (refs : Finset Str) : Str :=
  let pref := prefOf level b.heading
  let post := if b.uid ∈ refs then ' ' :: '^' :: b.uid else []
  let s := pref ++ s' ++ post
  if '\n' ∈ s then
    expandNl (pref.dropLast.dropLast ++ [' ', ' ']) s.dropLast
      ++ s.drop (s.length - 1) ++ ['\n']
  else s

/-- An entry of `unexpanded_lines`: a finished line or a pending sibling
list. -/
inductive Item : Type where
  | line : Str → Item
  | blocks : List EBlock → Item

/-- The per-block body of the pass (lines 196-227): in render mode resolve
the text and build the line; in discover mode only grow `referenced_uids` and
emit an empty line. -/
def renderBlock (idx : Dict) (bf df : Nat) (render : Bool) (level : Nat)
    (b : EBlock) (refs : Finset Str) : Option (Str × Finset Str) :=
  match render with
  | true =>
    match render_blockrefs idx bf df b.str refs with
    | none => none
    | some (s', refs') => some (renderLine level b s' refs', refs')
  | false =>
    some ([], get_referenced_uids idx b.str refs)

/-- Process one pending sibling list (lines 196-232): one line per block,
followed by the block's non-empty child list as a new pending entry. -/
def processBlocks (idx : Dict) (bf df : Nat) (render : Bool) (level : Nat) :
    List EBlock → Finset Str → Option (List Item × Finset Str × Bool)
  | [], refs => some ([], refs, false)
  | b :: bs, refs =>
    match renderBlock idx bf df render level b refs with
    | none => none
    | some (ln, refs') =>
      match processBlocks idx bf df render level bs refs' with
      | none => none
      | some (items, refs'', hu) =>
        some ((Item.line ln ::
          (if b.children.isEmpty then [] else [Item.blocks b.children]))
            ++ items,
          refs'', hu || !b.children.isEmpty)

/-- One full pass over `unexpanded_lines` (lines 189-233). -/
def renderPass (idx : Dict) (bf df : Nat) (render : Bool) (level : Nat) :
    List Item → Finset Str → Option (List Item × Finset Str × Bool)
  | [], refs => some ([], refs, false)
  | Item.line s :: rest, refs =>
    match renderPass idx bf df render level rest refs with
    | none => none
    | some (items, refs', hu) => some (Item.line s :: items, refs', hu)
  | Item.blocks bs :: rest, refs =>
    match processBlocks idx bf df render level bs refs with
    | none => none
    | some (items₁, refs₁, hu₁) =>
      match renderPass idx bf df render level rest refs₁ with
      | none => none
      | some (items₂, refs₂, hu₂) => some (items₁ ++ items₂, refs₂, hu₁ || hu₂)

def itemStr : Item → Str
  | .line s => s
  | .blocks _ => []

/-- The `while has_unexpanded` loop (lines 185-239), `cf` passes of fuel (the
nesting depth plus one suffices; when a pass queues no children the items are
all lines and are returned). -/
def rc_go (idx : Dict) (bf df : Nat) (render : Bool) :
    Nat → List Item → Nat → Finset Str → Option (List Str × Finset Str)
  | 0, _, _, _ => none
  | cf + 1, items, level, refs =>
    match renderPass idx bf df render level items refs with
    | none => none
    | some (items', refs', hu) =>
      if hu then rc_go idx bf df render cf items' (level + 1) refs'
      else some (items'.map itemStr, refs')

/-- `render_children` (lines 174-239). -/
def render_children (idx : Dict) (bf df cf : Nat) (children : List EBlock)
    (refs : Finset Str) (render : Bool) : Option (List Str × Finset Str) :=
  rc_go idx bf df render cf [Item.blocks children] 0 refs

/-- `s` ends with `sfx`. -/
def endsW (sfx s : Str) : Bool := decide (s.drop (s.length - sfx.length) = sfx)

theorem endsW_append (sfx Y : Str) : endsW sfx (Y ++ sfx) = true := by
  simp only [endsW, decide_eq_true_eq, List.length_append]
  rw [show Y.length + sfx.length - sfx.length = Y.length by omega]
  exact List.drop_left Y sfx

theorem expandNl_append (ind a b : Str) :
    expandNl ind (a ++ b) = expandNl ind a ++ expandNl ind b := by
  induction a with
  | nil => rfl
  | cons c cs ih => simp [expandNl, ih]

theorem expandNl_nonl {ind l : Str} (h : '\n' ∉ l) : expandNl ind l = l := by
  induction l with
  | nil => rfl
  | cons c cs ih =>
    have hc : c ≠ '\n' := fun hc => h (hc ▸ List.mem_cons_self c cs)
    have hcs : '\n' ∉ cs := fun hm => h (List.mem_cons_of_mem c hm)
    simp [expandNl, hc, ih hcs]

theorem dropLast_append_drop : ∀ l : Str, l.dropLast ++ l.drop (l.length - 1) = l
  | [] => rfl
  | [a] => rfl
  | a :: b :: t => by
    have ih : (b :: t).dropLast ++ (b :: t).drop ((b :: t).length - 1) = b :: t :=
      dropLast_append_drop (b :: t)
    have ih' : (b :: t).dropLast ++ (b :: t).drop t.length = b :: t := by
      simpa using ih
    simp only [List.dropLast_cons₂, List.length_cons, List.cons_append]
    rw [show t.length + 1 + 1 - 1 = t.length + 1 from by omega,
      List.drop_succ_cons, ih']

theorem nl_not_mem_prefOf (level : Nat) (h : Option Nat) :
    '\n' ∉ prefOf level h := by
  intro hm
  unfold prefOf at hm
  rcases List.mem_append.mp hm with hm | hm
  · rcases List.mem_append.mp hm with hm | hm
    · by_cases hl : 1 ≤ level
      · rw [if_pos hl] at hm
        exact absurd (List.eq_of_mem_replicate hm) (by decide)
      · rw [if_neg hl] at hm; cases hm
    · exact absurd hm (by decide)
  · cases h with
    | some hl =>
      simp only at hm
      rcases List.mem_append.mp hm with hm | hm
      · exact absurd (List.eq_of_mem_replicate hm) (by decide)
      · exact absurd hm (by decide)
    | none => simp at hm

/-- C5 (amended).  At the moment a block's line is produced, the renderer
appends the anchor token ` ^<id>` exactly when the block's id is in
`referenced_uids`: for single-line text the line then *ends* with the anchor,
while for multiline text the re-indentation step appends a final newline
directly after the anchor; when the id is absent the renderer appends
nothing (the line equals the one built with an empty referenced set).
(The original claim's plain "ends with ` ^<id>`" fails for referenced
multiline blocks — see the counterexample.) -/
theorem spec_C5_thm (level : Nat) (b : EBlock) (s' : Str) (refs : Finset Str)
    (hnl : '\n' ∉ b.uid) :
    (b.uid ∈ refs →
      (if '\n' ∈ s' then
        endsW ((' ' :: '^' :: b.uid) ++ ['\n']) (renderLine level b s' refs)
       else
        endsW (' ' :: '^' :: b.uid) (renderLine level b s' refs)) = true)
    ∧ (b.uid ∉ refs → renderLine level b s' refs = renderLine level b s' ∅) := by
  constructor
  · intro hmem
    have hpost : (if b.uid ∈ refs then ' ' :: '^' :: b.uid else [])
        = ' ' :: '^' :: b.uid := if_pos hmem
    have hnp : '\n' ∉ (' ' :: '^' :: b.uid) := by
      intro hm
      rcases List.mem_cons.mp hm with hm | hm
      · cases hm
      · rcases List.mem_cons.mp hm with hm | hm
        · cases hm
        · exact hnl hm
    by_cases hs : '\n' ∈ s'
    · rw [if_pos hs]
      unfold renderLine
      rw [hpost]
      have hin : '\n' ∈ prefOf level b.heading ++ s' ++ (' ' :: '^' :: b.uid) := by
        simp [List.mem_append, hs]
      rw [if_pos hin]
      set pf := prefOf level b.heading with hpf
      set post := ' ' :: '^' :: b.uid with hpostd
      have hassoc : pf ++ s' ++ post = (pf ++ s') ++ post := by
        simp [List.append_assoc]
      rw [hassoc]
      have hpostne : post ≠ [] := by simp [hpostd]
      rw [List.dropLast_append_of_ne_nil _ hpostne]
      rw [expandNl_append]
      rw [expandNl_nonl (fun hm => hnp (List.dropLast_subset post hm))]
      have hlen : ((pf ++ s') ++ post).length - 1
          = (pf ++ s').length + (post.length - 1) := by
        simp [List.length_append, hpostd]
        omega
      rw [hlen, drop_append_add]
      simp only [List.append_assoc]
      rw [show post.dropLast ++ (post.drop (post.length - 1) ++ ['\n'])
          = post ++ ['\n'] from by
        rw [← List.append_assoc, dropLast_append_drop post]]
      exact endsW_append (post ++ ['\n']) _
    · rw [if_neg hs]
      unfold renderLine
      rw [hpost]
      have hout : '\n' ∉ prefOf level b.heading ++ s' ++ (' ' :: '^' :: b.uid) := by
        intro hm
        rcases List.mem_append.mp hm with hm | hm
        · rcases List.mem_append.mp hm with hm | hm
          · exact nl_not_mem_prefOf level b.heading hm
          · exact hs hm
        · exact hnp hm
      rw [if_neg hout]
      rw [show prefOf level b.heading ++ s' ++ (' ' :: '^' :: b.uid)
          = (prefOf level b.heading ++ s') ++ (' ' :: '^' :: b.uid) from by
        simp [List.append_assoc]]
      exact endsW_append _ _
  · intro hmem
    unfold renderLine
    rw [if_neg hmem]
    rw [if_neg (by simp : ¬ b.uid ∈ (∅ : Finset Str))]

theorem spec_C5_witness :
    ('\n' ∉ blkB.uid)
    ∧ endsW (' ' :: '^' :: blkB.uid)
        (renderLine 0 blkB "hi".data {blkB.uid}) = true := by
  refine ⟨by decide, ?_⟩
  have h := (spec_C5_thm 0 blkB "hi".data {blkB.uid} (by decide)).1 (by simp)
  rw [if_neg (by decide : ¬ '\n' ∈ "hi".data)] at h
  exact h

/-- A referenced block whose text holds a newline. -/
def blkM : EBlock := .mk "bbbbbbbbb".data "x\ny".data none [] "P".data

/-- C5 counterexample.  Rendering the multiline block `blkM` while its id is
a member of `referenced_uids` produces the line `"- x\n  y ^bbbbbbbbb\n"`,
which does *not* end with the anchor ` ^bbbbbbbbb` (the re-indentation step
appends a trailing newline), refuting the claimed "ends with ` ^<id>` iff
member" equivalence. -/
theorem spec_C5_cex :
    ("bbbbbbbbb".data ∈ ({"bbbbbbbbb".data} : Finset Str))
    ∧ (render_children idxW 2 1 2 [blkM] {"bbbbbbbbb".data} true).map
        (fun r => r.1.map (endsW (' ' :: '^' :: "bbbbbbbbb".data)))
      = some [false] := by decide

/-- The indentation-and-marker head of a depth-`d` line. -/
def linePref (d : Nat) : Str := List.replicate d '\t' ++ "- ".data

theorem prefOf_split (level : Nat) (h : Option Nat) :
    prefOf level h = linePref level
      ++ (match h with
          | some hl => List.replicate hl '#' ++ [' ']
          | none => []) := by
  unfold prefOf linePref
  congr 2
  cases level with
  | zero => simp
  | succ n => simp

theorem nl_not_mem_linePref (d : Nat) : '\n' ∉ linePref d := by
  intro hm
  rcases List.mem_append.mp hm with hm | hm
  · exact absurd (List.eq_of_mem_replicate hm) (by decide)
  · exact absurd hm (by decide)

/-- Every rendered line starts with `d` tabs followed by `"- "` — also for
multiline text, since the prefix holds no newline. -/
theorem renderLine_starts (level : Nat) (b : EBlock) (s' : Str)
    (refs : Finset Str) :
    (renderLine level b s' refs).take (linePref level).length
      = linePref level := by
  simp only [renderLine]
  set post := if b.uid ∈ refs then ' ' :: '^' :: b.uid else [] with hpost
  set rest := (match b.heading with
      | some hl => List.replicate hl '#' ++ [' ']
      | none => []) ++ s' ++ post with hrest
  have hsplit : prefOf level b.heading ++ s' ++ post
      = linePref level ++ rest := by
    rw [prefOf_split, hrest]
    simp [List.append_assoc]
  rw [hsplit]
  by_cases hin : '\n' ∈ linePref level ++ rest
  · rw [if_pos hin]
    have hrne : rest ≠ [] := by
      intro hr
      rw [hr, List.append_nil] at hin
      exact nl_not_mem_linePref level hin
    rw [List.dropLast_append_of_ne_nil _ hrne, expandNl_append,
      expandNl_nonl (fun hm => nl_not_mem_linePref level hm)]
    rw [List.append_assoc, List.append_assoc]
    exact List.take_left _ _
  · rw [if_neg hin]
    exact List.take_left _ _

/-- `LinesFor d bs L`: `L` is exactly one line per block of the forest `bs`,
in pre-order (parent's line, then the lines of its subtree, then the
following siblings), each line starting with `d` tabs and `"- "` at depth
`d`. -/
inductive LinesFor : Nat → List EBlock → List Str → Prop where
  | nil : ∀ d, LinesFor d [] []
  | cons : ∀ d b bs ln ls₁ ls₂,
      ln.take (linePref d).length = linePref d →
      LinesFor (d + 1) b.children ls₁ →
      LinesFor d bs ls₂ →
      LinesFor d (b :: bs) (ln :: (ls₁ ++ ls₂))

/-- `ItemsFor d items L`: `L` is the final flattening of the working list
`items`, whose pending forests sit at depth `d`. -/
inductive ItemsFor : Nat → List Item → List Str → Prop where
  | nil : ∀ d, ItemsFor d [] []
  | line : ∀ d s items ls,
      ItemsFor d items ls → ItemsFor d (Item.line s :: items) (s :: ls)
  | blocks : ∀ d bs items ls₁ ls₂,
      LinesFor d bs ls₁ → ItemsFor d items ls₂ →
      ItemsFor d (Item.blocks bs :: items) (ls₁ ++ ls₂)

theorem itemsFor_append {d : Nat} {xs ys : List Item} {L : List Str}
    (h : ItemsFor d (xs ++ ys) L) :
    ∃ L₁ L₂, L = L₁ ++ L₂ ∧ ItemsFor d xs L₁ ∧ ItemsFor d ys L₂ := by
  induction xs generalizing L with
  | nil => exact ⟨[], L, by simp, ItemsFor.nil d, h⟩
  | cons x xs ih =>
    cases x with
    | line s =>
      cases h
      rename_i ls h'
      obtain ⟨L₁, L₂, rfl, h1, h2⟩ := ih h'
      exact ⟨s :: L₁, L₂, by simp, ItemsFor.line _ _ _ _ h1, h2⟩
    | blocks bs =>
      cases h
      rename_i ls₁ ls₂ hb h'
      obtain ⟨L₁, L₂, rfl, h1, h2⟩ := ih h'
      exact ⟨ls₁ ++ L₁, L₂, by simp, ItemsFor.blocks _ _ _ _ _ hb h1, h2⟩

def Item.isLine : Item → Bool
  | .line _ => true
  | .blocks _ => false

theorem itemsFor_lines {items : List Item}
    (h : ∀ i ∈ items, i.isLine = true) (d : Nat) :
    ItemsFor d items (items.map itemStr) := by
  induction items with
  | nil => exact ItemsFor.nil d
  | cons x xs ih =>
    cases x with
    | line s =>
      exact ItemsFor.line _ _ _ _ (ih fun i hi => h i (List.mem_cons_of_mem _ hi))
    | blocks bs =>
      exact absurd (h _ (List.mem_cons_self _ _)) (by simp [Item.isLine])

theorem processBlocks_lines (idx : Dict) (bf df : Nat) (render : Bool)
    (level : Nat) :
    ∀ (bs : List EBlock) (refs : Finset Str) (ibs : List Item)
      (refs' : Finset Str),
      processBlocks idx bf df render level bs refs = some (ibs, refs', false) →
      ∀ i ∈ ibs, i.isLine = true := by
  intro bs
  induction bs with
  | nil =>
    intro refs ibs refs' h i hi
    simp only [processBlocks, Option.some.injEq, Prod.mk.injEq] at h
    rw [← h.1] at hi
    cases hi
  | cons b bs ih =>
    intro refs ibs refs' h i hi
    simp only [processBlocks] at h
    cases hrb : renderBlock idx bf df render level b refs with
    | none => simp [hrb] at h
    | some p =>
      obtain ⟨ln, refs₁⟩ := p
      simp only [hrb] at h
      cases hpb : processBlocks idx bf df render level bs refs₁ with
      | none => simp [hpb] at h
      | some q =>
        obtain ⟨items, refs₂, hu⟩ := q
        simp only [hpb, Option.some.injEq, Prod.mk.injEq] at h
        obtain ⟨h1, -, h3⟩ := h
        have hor := Bool.or_eq_false_iff.mp h3
        have hemp : b.children.isEmpty = true := by
          rcases hor with ⟨-, h4⟩
          simpa using h4
        rw [hemp] at h1
        simp only [if_pos rfl, List.nil_append] at h1
        rw [← h1] at hi
        rcases List.mem_cons.mp hi with rfl | hi'
        · rfl
        · exact ih refs₁ items refs₂ (by rw [hpb, hor.1]) i hi'

theorem renderPass_lines (idx : Dict) (bf df : Nat) (render : Bool)
    (level : Nat) :
    ∀ (items : List Item) (refs : Finset Str) (items' : List Item)
      (refs' : Finset Str),
      renderPass idx bf df render level items refs
          = some (items', refs', false) →
      ∀ i ∈ items', i.isLine = true := by
  intro items
  induction items with
  | nil =>
    intro refs items' refs' h i hi
    simp only [renderPass, Option.some.injEq, Prod.mk.injEq] at h
    rw [← h.1] at hi
    cases hi
  | cons x xs ih =>
    intro refs items' refs' h i hi
    cases x with
    | line s =>
      simp only [renderPass] at h
      cases hrp : renderPass idx bf df render level xs refs with
      | none => simp [hrp] at h
      | some q =>
        obtain ⟨items₂, refs₂, hu⟩ := q
        simp only [hrp, Option.some.injEq, Prod.mk.injEq] at h
        obtain ⟨h1, -, h3⟩ := h
        rw [← h1] at hi
        rcases List.mem_cons.mp hi with rfl | hi'
        · rfl
        · exact ih refs items₂ refs₂ (by rw [hrp, h3]) i hi'
    | blocks bs =>
      simp only [renderPass] at h
      cases hpb : processBlocks idx bf df render level bs refs with
      | none => simp [hpb] at h
      | some p =>
        obtain ⟨items₁, refs₁, hu₁⟩ := p
        simp only [hpb] at h
        cases hrp : renderPass idx bf df render level xs refs₁ with
        | none => simp [hrp] at h
        | some q =>
          obtain ⟨items₂, refs₂, hu₂⟩ := q
          simp only [hrp, Option.some.injEq, Prod.mk.injEq] at h
          obtain ⟨h1, -, h3⟩ := h
          have hor := Bool.or_eq_false_iff.mp h3
          rw [← h1] at hi
          rcases List.mem_append.mp hi with hi' | hi'
          · exact processBlocks_lines idx bf df render level bs refs items₁
              refs₁ (by rw [hpb, hor.1]) i hi'
          · exact ih refs₁ items₂ refs₂ (by rw [hrp, hor.2]) i hi'

theorem processBlocks_itemsFor (idx : Dict) (bf df level : Nat) :
    ∀ (bs : List EBlock) (refs : Finset Str) (ibs : List Item)
      (refs' : Finset Str) (hu : Bool),
      processBlocks idx bf df true level bs refs = some (ibs, refs', hu) →
      ∀ L, ItemsFor (level + 1) ibs L → LinesFor level bs L := by
  intro bs
  induction bs with
  | nil =>
    intro refs ibs refs' hu h L hL
    simp only [processBlocks, Option.some.injEq, Prod.mk.injEq] at h
    rw [← h.1] at hL
    cases hL
    exact LinesFor.nil level
  | cons b bs ih =>
    intro refs ibs refs' hu h L hL
    simp only [processBlocks] at h
    cases hrb : renderBlock idx bf df true level b refs with
    | none => simp [hrb] at h
    | some p =>
      obtain ⟨ln, refs₁⟩ := p
      simp only [hrb] at h
      cases hpb : processBlocks idx bf df true level bs refs₁ with
      | none => simp [hpb] at h
      | some q =>
        obtain ⟨items, refs₂, hu'⟩ := q
        simp only [hpb, Option.some.injEq, Prod.mk.injEq] at h
        obtain ⟨h1, -, -⟩ := h
        have hpref : ln.take (linePref level).length = linePref level := by
          simp only [renderBlock] at hrb
          cases hrr : render_blockrefs idx bf df b.str refs with
          | none => simp [hrr] at hrb
          | some r =>
            obtain ⟨s', refs₁'⟩ := r
            simp only [hrr, Option.some.injEq, Prod.mk.injEq] at hrb
            rw [← hrb.1]
            exact renderLine_starts level b s' refs₁'
        rw [← h1] at hL
        by_cases hemp : b.children.isEmpty = true
        · rw [if_pos hemp] at hL
          simp only [List.cons_append, List.nil_append] at hL
          cases hL
          rename_i ls hL2
          have hch : b.children = [] := List.isEmpty_iff.mp hemp
          have hrec := ih refs₁ items refs₂ hu' hpb ls hL2
          have hfin : LinesFor level (b :: bs) (ln :: ([] ++ ls)) :=
            LinesFor.cons level b bs ln [] ls hpref
              (hch ▸ LinesFor.nil (level + 1)) hrec
          simpa using hfin
        · rw [if_neg hemp] at hL
          simp only [List.cons_append, List.singleton_append] at hL
          cases hL
          rename_i ls hL2
          cases hL2
          rename_i ls₁ ls₂ hlf hif
          exact LinesFor.cons level b bs ln ls₁ ls₂ hpref hlf
            (ih refs₁ items refs₂ hu' hpb ls₂ hif)

theorem renderPass_itemsFor (idx : Dict) (bf df level : Nat) :
    ∀ (items : List Item) (refs : Finset Str) (items' : List Item)
      (refs' : Finset Str) (hu : Bool),
      renderPass idx bf df true level items refs = some (items', refs', hu) →
      ∀ L, ItemsFor (level + 1) items' L → ItemsFor level items L := by
  intro items
  induction items with
  | nil =>
    intro refs items' refs' hu h L hL
    simp only [renderPass, Option.some.injEq, Prod.mk.injEq] at h
    rw [← h.1] at hL
    cases hL
    exact ItemsFor.nil _
  | cons x xs ih =>
    intro refs items' refs' hu h L hL
    cases x with
    | line s =>
      simp only [renderPass] at h
      cases hrp : renderPass idx bf df true level xs refs with
      | none => simp [hrp] at h
      | some q =>
        obtain ⟨items₂, refs₂, hu₂⟩ := q
        simp only [hrp, Option.some.injEq, Prod.mk.injEq] at h
        obtain ⟨h1, -, -⟩ := h
        rw [← h1] at hL
        cases hL
        rename_i ls hL2
        exact ItemsFor.line _ _ _ _ (ih refs items₂ refs₂ hu₂ hrp ls hL2)
    | blocks bs =>
      simp only [renderPass] at h
      cases hpb : processBlocks idx bf df true level bs refs with
      | none => simp [hpb] at h
      | some p =>
        obtain ⟨items₁, refs₁, hu₁⟩ := p
        simp only [hpb] at h
        cases hrp : renderPass idx bf df true level xs refs₁ with
        | none => simp [hrp] at h
        | some q =>
          obtain ⟨items₂, refs₂, hu₂⟩ := q
          simp only [hrp, Option.some.injEq, Prod.mk.injEq] at h
          obtain ⟨h1, -, -⟩ := h
          rw [← h1] at hL
          obtain ⟨L₁, L₂, rfl, hI1, hI2⟩ := itemsFor_append hL
          exact ItemsFor.blocks _ _ _ _ _
            (processBlocks_itemsFor idx bf df level bs refs items₁ refs₁ hu₁
              hpb L₁ hI1)
            (ih refs₁ items₂ refs₂ hu₂ hrp L₂ hI2)

theorem rc_go_itemsFor (idx : Dict) (bf df : Nat) :
    ∀ (cf : Nat) (items : List Item) (level : Nat) (refs : Finset Str)
      (L : List Str) (refs' : Finset Str),
      rc_go idx bf df true cf items level refs = some (L, refs') →
      ItemsFor level items L := by
  intro cf
  induction cf with
  | zero => intro items level refs L refs' h; cases h
  | succ cf ih =>
    intro items level refs L refs' h
    simp only [rc_go] at h
    cases hrp : renderPass idx bf df true level items refs with
    | none => simp [hrp] at h
    | some p =>
      obtain ⟨items', refs₁, hu⟩ := p
      simp only [hrp] at h
      by_cases hhu : hu = true
      · rw [if_pos hhu] at h
        exact renderPass_itemsFor idx bf df level items refs items' refs₁ hu
          hrp L (ih items' (level + 1) refs₁ L refs' h)
      · rw [if_neg hhu] at h
        simp only [Option.some.injEq, Prod.mk.injEq] at h
        obtain ⟨h1, -⟩ := h
        have hfalse : hu = false := Bool.eq_false_iff.mpr hhu
        have hall := renderPass_lines idx bf df true level items refs items'
          refs₁ (by rw [hrp, hfalse])
        rw [← h1]
        exact renderPass_itemsFor idx bf df level items refs items' refs₁ hu
          hrp _ (itemsFor_lines hall (level + 1))

/-- Number of blocks in a forest. -/
def countB : List EBlock → Nat
  | [] => 0
  | .mk _ _ _ c _ :: bs => 1 + countB c + countB bs

theorem countB_cons (b : EBlock) (bs : List EBlock) :
    countB (b :: bs) = 1 + countB b.children + countB bs := by
  cases b with
  | mk u s h c pt => simp [countB, EBlock.children]

theorem linesFor_length {d : Nat} {bs : List EBlock} {L : List Str}
    (h : LinesFor d bs L) : L.length = countB bs := by
  induction h with
  | nil => simp [countB]
  | cons d b bs ln ls₁ ls₂ hp h1 h2 ih1 ih2 =>
    simp [countB_cons, List.length_append, ih1, ih2]
    omega

/-- C7.  Renderer line layout: whenever `render_children` in render mode
returns, it returns exactly one string per block of the forest, ordered as
the pre-order depth-first traversal (each block's line, then its subtree's
lines, then its later siblings'), and the line of a block at nesting depth
`d` starts with exactly `d` tab characters followed by `"- "` (this holds
for all blocks, multiline text included, because the re-indentation never
touches the line's head). -/
theorem spec_C7_thm (idx : Dict) (bf df cf : Nat) (F : List EBlock)
    (refs : Finset Str) (L : List Str) (refs' : Finset Str)
    (h : render_children idx bf df cf F refs true = some (L, refs')) :
    LinesFor 0 F L ∧ L.length = countB F := by
  have hI := rc_go_itemsFor idx bf df cf [Item.blocks F] 0 refs L refs' h
  cases hI
  rename_i ls₁ ls₂ hlf hif
  cases hif
  have hL : ls₁ ++ [] = ls₁ := List.append_nil ls₁
  rw [hL]
  exact ⟨hlf, linesFor_length hlf⟩

/-- Fixture: a two-level forest. -/
def blkChild : EBlock := .mk "child0001".data "c".data none [] "P".data

def blkPar : EBlock := .mk "parent001".data "p".data (some 2) [blkChild] "P".data

theorem spec_C7_witness :
    ∃ (L : List Str) (refs' : Finset Str),
      render_children idxW 2 1 3 [blkPar] ∅ true = some (L, refs')
      ∧ LinesFor 0 [blkPar] L ∧ L.length = countB [blkPar] := by
  refine ⟨_, _, rfl, ?_⟩
  exact spec_C7_thm idxW 2 1 3 [blkPar] ∅ _ _ rfl

theorem renderBlock_mono {idx : Dict} {bf df : Nat} {render : Bool}
    {level : Nat} {b : EBlock} {refs : Finset Str} {ln : Str}
    {refs' : Finset Str}
    (h : renderBlock idx bf df render level b refs = some (ln, refs')) :
    refs ⊆ refs' := by
  cases render with
  | true =>
    simp only [renderBlock] at h
    cases hrr : render_blockrefs idx bf df b.str refs with
    | none => simp [hrr] at h
    | some r =>
      obtain ⟨s', refs₁⟩ := r
      simp only [hrr, Option.some.injEq, Prod.mk.injEq] at h
      rw [← h.2]
      exact render_go_mono idx df bf b.str 0 refs s' refs₁ hrr
  | false =>
    simp only [renderBlock, Option.some.injEq, Prod.mk.injEq] at h
    rw [← h.2]
    exact get_aux_mono idx b.str _ _ refs

theorem processBlocks_mono {idx : Dict} {bf df : Nat} {render : Bool}
    {level : Nat} :
    ∀ {bs : List EBlock} {refs : Finset Str} {ibs : List Item}
      {refs' : Finset Str} {hu : Bool},
      processBlocks idx bf df render level bs refs = some (ibs, refs', hu) →
      refs ⊆ refs' := by
  intro bs
  induction bs with
  | nil =>
    intro refs ibs refs' hu h
    simp only [processBlocks, Option.some.injEq, Prod.mk.injEq] at h
    rw [← h.2.1]
  | cons b bs ih =>
    intro refs ibs refs' hu h
    simp only [processBlocks] at h
    cases hrb : renderBlock idx bf df render level b refs with
    | none => simp [hrb] at h
    | some p =>
      obtain ⟨ln, refs₁⟩ := p
      simp only [hrb] at h
      cases hpb : processBlocks idx bf df render level bs refs₁ with
      | none => simp [hpb] at h
      | some q =>
        obtain ⟨items, refs₂, hu'⟩ := q
        simp only [hpb, Option.some.injEq, Prod.mk.injEq] at h
        rw [← h.2.1]
        exact Finset.Subset.trans (renderBlock_mono hrb) (ih hpb)

theorem renderPass_mono {idx : Dict} {bf df : Nat} {render : Bool}
    {level : Nat} :
    ∀ {items : List Item} {refs : Finset Str} {items' : List Item}
      {refs' : Finset Str} {hu : Bool},
      renderPass idx bf df render level items refs = some (items', refs', hu) →
      refs ⊆ refs' := by
  intro items
  induction items with
  | nil =>
    intro refs items' refs' hu h
    simp only [renderPass, Option.some.injEq, Prod.mk.injEq] at h
    rw [← h.2.1]
  | cons x xs ih =>
    intro refs items' refs' hu h
    cases x with
    | line s =>
      simp only [renderPass] at h
      cases hrp : renderPass idx bf df render level xs refs with
      | none => simp [hrp] at h
      | some q =>
        obtain ⟨items₂, refs₂, hu₂⟩ := q
        simp only [hrp, Option.some.injEq, Prod.mk.injEq] at h
        rw [← h.2.1]
        exact ih hrp
    | blocks bs =>
      simp only [renderPass] at h
      cases hpb : processBlocks idx bf df render level bs refs with
      | none => simp [hpb] at h
      | some p =>
        obtain ⟨items₁, refs₁, hu₁⟩ := p
        simp only [hpb] at h
        cases hrp : renderPass idx bf df render level xs refs₁ with
        | none => simp [hrp] at h
        | some q =>
          obtain ⟨items₂, refs₂, hu₂⟩ := q
          simp only [hrp, Option.some.injEq, Prod.mk.injEq] at h
          rw [← h.2.1]
          exact Finset.Subset.trans (processBlocks_mono hpb) (ih hrp)

theorem rc_go_mono {idx : Dict} {bf df : Nat} {render : Bool} :
    ∀ {cf : Nat} {items : List Item} {level : Nat} {refs : Finset Str}
      {L : List Str} {refs' : Finset Str},
      rc_go idx bf df render cf items level refs = some (L, refs') →
      refs ⊆ refs' := by
  intro cf
  induction cf with
  | zero => intro items level refs L refs' h; cases h
  | succ cf ih =>
    intro items level refs L refs' h
    simp only [rc_go] at h
    cases hrp : renderPass idx bf df render level items refs with
    | none => simp [hrp] at h
    | some p =>
      obtain ⟨items', refs₁, hu⟩ := p
      simp only [hrp] at h
      by_cases hhu : hu = true
      · rw [if_pos hhu] at h
        exact Finset.Subset.trans (renderPass_mono hrp) (ih h)
      · rw [if_neg hhu] at h
        simp only [Option.some.injEq, Prod.mk.injEq] at h
        rw [← h.2]
        exact renderPass_mono hrp

/-- C2 (amended).  `referenced_uids` only ever grows: neither the scanning
pass (`render=False`) nor the rendering pass (`render=True`) of
`render_children` ever removes a member.  (The original claim's "read-only
during rendering" is false: `render_blockrefs` also *adds* ids during
rendering — e.g. ids the scanner's cursor skipped — see the
counterexample.) -/
theorem spec_C2_thm (idx : Dict) (bf df cf : Nat) (F : List EBlock)
    (refs : Finset Str) (mode : Bool) (L : List Str) (refs' : Finset Str)
    (h : render_children idx bf df cf F refs mode = some (L, refs')) :
    refs ⊆ refs' :=
  rc_go_mono h

/-- A page's blocks as rendered/scanned: its raw children with the page
attached (what `page_["children"]` holds after the indexing pass). -/
def pchildren (p : PPage) : List EBlock := extendBlocks p.title p.children

/-- Pass 2 (lines 111-114): `render_children(..., render=False)` over every
page, threading the shared `referenced_uids`. -/
def scanFrom (idx : Dict) (cf : Nat) :
    List PPage → Finset Str → Option (Finset Str)
  | [], refs => some refs
  | p :: ps, refs =>
    match render_children idx 0 0 cf (pchildren p) refs false with
    | none => none
    | some (_, refs') => scanFrom idx cf ps refs'

def scanAll (idx : Dict) (cf : Nat) (pages : List PPage) : Option (Finset Str) :=
  scanFrom idx cf pages ∅

/-- The counterexample document: one page `P` with a block `R` whose text
holds a plain reference to `B` *before* an embed of `C`, plus the two target
blocks. -/
def blkRb : Block := .mk "rrrrrrrrr".data strW none []

def blkBb : Block := .mk "bbbbbbbbb".data "hi".data none []

def blkCb : Block := .mk "ccccccccc".data "yo".data none []

def pageP : PPage := ⟨"P".data, [blkRb, blkBb, blkCb]⟩

def docD : List PPage := [pageP]

def idxD : Dict := mainIndex docD

/-- C2 counterexample.  After the scanning pass over the document,
`referenced_uids` is `\x7bccccccccc\x7d` — it does not contain `bbbbbbbbb`
(the embed-priority search jumped the cursor past the earlier plain
reference).  Rendering the same page then *adds* `bbbbbbbbb` to the set, so
membership does change during rendering. -/
theorem spec_C2_cex :
    ((scanAll idxD 3 docD).bind fun refsS =>
        (render_children idxD 6 1 3 (pchildren pageP) refsS true).map fun r =>
          (decide ("bbbbbbbbb".data ∈ refsS), decide ("bbbbbbbbb".data ∈ r.2)))
      = some (false, true) := by decide

theorem spec_C2_witness :
    ∃ (L : List Str) (refs' : Finset Str),
      render_children idxD 0 0 3 (pchildren pageP) ∅ false = some (L, refs')
      ∧ (∅ : Finset Str) ⊆ refs' := by
  refine ⟨_, _, rfl, ?_⟩
  exact spec_C2_thm idxD 0 0 3 (pchildren pageP) ∅ false _ _ rfl

/-- Pre-order, depth-first traversal of an extended-block forest. -/
def preE : List EBlock → List EBlock
  | [] => []
  | .mk u s h c pt :: bs => .mk u s h c pt :: (preE c ++ preE bs)

theorem preE_cons (b : EBlock) (bs : List EBlock) :
    preE (b :: bs) = b :: (preE b.children ++ preE bs) := by
  cases b with
  | mk u s h c pt => simp [preE, EBlock.children]

theorem preE_elim {b : EBlock} :
    ∀ {bs : List EBlock}, b ∈ preE bs →
      ∃ b₀ ∈ bs, b = b₀ ∨ b ∈ preE b₀.children := by
  intro bs
  induction bs with
  | nil => intro h; simp [preE] at h
  | cons b₀ bs ih =>
    intro h
    rw [preE_cons] at h
    rcases List.mem_cons.mp h with rfl | h'
    · exact ⟨b, List.mem_cons_self _ _, Or.inl rfl⟩
    · rcases List.mem_append.mp h' with h'' | h''
      · exact ⟨b₀, List.mem_cons_self _ _, Or.inr h''⟩
      · obtain ⟨b₁, hb₁, hor⟩ := ih h''
        exact ⟨b₁, List.mem_cons_of_mem _ hb₁, hor⟩

theorem preE_ne_nil {b : EBlock} {c : List EBlock} (h : b ∈ preE c) :
    c ≠ [] := by
  intro hc
  rw [hc] at h
  simp [preE] at h

theorem processBlocks_cov (idx : Dict) (bf df level : Nat) :
    ∀ (bs : List EBlock) (refs : Finset Str) (ibs : List Item)
      (refs' : Finset Str) (hu : Bool),
      processBlocks idx bf df false level bs refs = some (ibs, refs', hu) →
      (∀ b ∈ bs, ∀ u ∈ selUids b.str, (idx u).isSome → u ∈ refs')
      ∧ (∀ b ∈ bs, b.children ≠ [] → Item.blocks b.children ∈ ibs)
      ∧ (hu = false → ∀ b ∈ bs, b.children = []) := by
  intro bs
  induction bs with
  | nil =>
    intro refs ibs refs' hu h
    exact ⟨fun b hb => absurd hb (by simp),
      fun b hb => absurd hb (by simp),
      fun _ b hb => absurd hb (by simp)⟩
  | cons b bs ih =>
    intro refs ibs refs' hu h
    simp only [processBlocks] at h
    cases hrb : renderBlock idx bf df false level b refs with
    | none => simp [hrb] at h
    | some p =>
      obtain ⟨ln, refs₁⟩ := p
      simp only [hrb] at h
      cases hpb : processBlocks idx bf df false level bs refs₁ with
      | none => simp [hpb] at h
      | some q =>
        obtain ⟨items, refs₂, hu'⟩ := q
        simp only [hpb, Option.some.injEq, Prod.mk.injEq] at h
        obtain ⟨h1, h2, h3⟩ := h
        obtain ⟨ihc, ihi, ihe⟩ := ih refs₁ items refs₂ hu' hpb
        have hrefs₁ : refs₁ = get_referenced_uids idx b.str refs := by
          simp only [renderBlock, Option.some.injEq, Prod.mk.injEq] at hrb
          exact hrb.2.symm
        refine ⟨?_, ?_, ?_⟩
        · intro b' hb' u hu₁ hidx
          rcases List.mem_cons.mp hb' with rfl | hb''
          · have : u ∈ refs₁ := by
              rw [hrefs₁]
              exact get_aux_covers idx b'.str _ _ refs u hu₁ hidx
            rw [← h2]
            exact processBlocks_mono hpb this
          · rw [← h2]
            exact ihc b' hb'' u hu₁ hidx
        · intro b' hb' hne
          rcases List.mem_cons.mp hb' with rfl | hb''
          · rw [← h1]
            have : ¬ b'.children.isEmpty = true := by
              simpa [List.isEmpty_iff] using hne
            rw [if_neg this]
            simp
          · rw [← h1]
            exact List.mem_append_right _ (ihi b' hb'' hne)
        · intro hfu b' hb'
          rw [← h3] at hfu
          have hor := Bool.or_eq_false_iff.mp hfu
          rcases List.mem_cons.mp hb' with rfl | hb''
          · have := hor.2
            simpa [List.isEmpty_iff] using this
          · exact ihe hor.1 b' hb''

theorem renderPass_cov (idx : Dict) (bf df level : Nat) :
    ∀ (items : List Item) (refs : Finset Str) (items' : List Item)
      (refs' : Finset Str) (hu : Bool),
      renderPass idx bf df false level items refs = some (items', refs', hu) →
      (∀ bs, Item.blocks bs ∈ items →
        ∀ b ∈ bs, ∀ u ∈ selUids b.str, (idx u).isSome → u ∈ refs')
      ∧ (∀ bs, Item.blocks bs ∈ items →
          ∀ b ∈ bs, b.children ≠ [] → Item.blocks b.children ∈ items')
      ∧ (hu = false → ∀ bs, Item.blocks bs ∈ items →
          ∀ b ∈ bs, b.children = []) := by
  intro items
  induction items with
  | nil =>
    intro refs items' refs' hu h
    exact ⟨fun bs hbs => absurd hbs (by simp),
      fun bs hbs => absurd hbs (by simp),
      fun _ bs hbs => absurd hbs (by simp)⟩
  | cons x xs ih =>
    intro refs items' refs' hu h
    cases x with
    | line s =>
      simp only [renderPass] at h
      cases hrp : renderPass idx bf df false level xs refs with
      | none => simp [hrp] at h
      | some q =>
        obtain ⟨items₂, refs₂, hu₂⟩ := q
        simp only [hrp, Option.some.injEq, Prod.mk.injEq] at h
        obtain ⟨h1, h2, h3⟩ := h
        obtain ⟨ihc, ihi, ihe⟩ := ih refs items₂ refs₂ hu₂ hrp
        refine ⟨?_, ?_, ?_⟩
        · intro bs hbs
          rcases List.mem_cons.mp hbs with hEq | hbs'
          · cases hEq
          · rw [← h2]; exact ihc bs hbs'
        · intro bs hbs b hb hne
          rcases List.mem_cons.mp hbs with hEq | hbs'
          · cases hEq
          · rw [← h1]
            exact List.mem_cons_of_mem _ (ihi bs hbs' b hb hne)
        · intro hfu bs hbs
          rw [← h3] at hfu
          rcases List.mem_cons.mp hbs with hEq | hbs'
          · cases hEq
          · exact ihe hfu bs hbs'
    | blocks bs₀ =>
      simp only [renderPass] at h
      cases hpb : processBlocks idx bf df false level bs₀ refs with
      | none => simp [hpb] at h
      | some p =>
        obtain ⟨items₁, refs₁, hu₁⟩ := p
        simp only [hpb] at h
        cases hrp : renderPass idx bf df false level xs refs₁ with
        | none => simp [hrp] at h
        | some q =>
          obtain ⟨items₂, refs₂, hu₂⟩ := q
          simp only [hrp, Option.some.injEq, Prod.mk.injEq] at h
          obtain ⟨h1, h2, h3⟩ := h
          obtain ⟨pc, pi, pe⟩ := processBlocks_cov idx bf df level bs₀ refs
            items₁ refs₁ hu₁ hpb
          obtain ⟨ihc, ihi, ihe⟩ := ih refs₁ items₂ refs₂ hu₂ hrp
          refine ⟨?_, ?_, ?_⟩
          · intro bs hbs b hb u hu₃ hidx
            rcases List.mem_cons.mp hbs with hEq | hbs'
            · cases hEq
              rw [← h2]
              exact renderPass_mono hrp (pc b hb u hu₃ hidx)
            · rw [← h2]
              exact ihc bs hbs' b hb u hu₃ hidx
          · intro bs hbs b hb hne
            rcases List.mem_cons.mp hbs with hEq | hbs'
            · cases hEq
              rw [← h1]
              exact List.mem_append_left _ (pi b hb hne)
            · rw [← h1]
              exact List.mem_append_right _ (ihi bs hbs' b hb hne)
          · intro hfu bs hbs
            rw [← h3] at hfu
            have hor := Bool.or_eq_false_iff.mp hfu
            rcases List.mem_cons.mp hbs with hEq | hbs'
            · cases hEq
              exact pe hor.1
            · exact ihe hor.2 bs hbs'

theorem rc_go_cov (idx : Dict) (bf df : Nat) :
    ∀ (cf : Nat) (items : List Item) (level : Nat) (refs : Finset Str)
      (L : List Str) (refs' : Finset Str),
      rc_go idx bf df false cf items level refs = some (L, refs') →
      ∀ bs, Item.blocks bs ∈ items → ∀ b ∈ preE bs, ∀ u ∈ selUids b.str,
        (idx u).isSome → u ∈ refs' := by
  intro cf
  induction cf with
  | zero => intro items level refs L refs' h; cases h
  | succ cf ih =>
    intro items level refs L refs' h bs hbs b hb u hu hidx
    simp only [rc_go] at h
    cases hrp : renderPass idx bf df false level items refs with
    | none => simp [hrp] at h
    | some p =>
      obtain ⟨items', refs₁, hu'⟩ := p
      simp only [hrp] at h
      obtain ⟨pc, pi, pe⟩ := renderPass_cov idx bf df level items refs
        items' refs₁ hu' hrp
      obtain ⟨b₀, hb₀, hor⟩ := preE_elim hb
      by_cases hhu : hu' = true
      · rw [if_pos hhu] at h
        rcases hor with rfl | hsub
        · exact rc_go_mono h (pc bs hbs b hb₀ u hu hidx)
        · have hne : b₀.children ≠ [] := preE_ne_nil hsub
          exact ih items' (level + 1) refs₁ L refs' h b₀.children
            (pi bs hbs b₀ hb₀ hne) b hsub u hu hidx
      · rw [if_neg hhu] at h
        simp only [Option.some.injEq, Prod.mk.injEq] at h
        have hfalse : hu' = false := Bool.eq_false_iff.mpr hhu
        rcases hor with rfl | hsub
        · rw [← h.2]
          exact pc bs hbs b hb₀ u hu hidx
        · exact absurd (pe hfalse bs hbs b₀ hb₀) (preE_ne_nil hsub)

theorem scanFrom_mono (idx : Dict) (cf : Nat) :
    ∀ (pages : List PPage) (refs refsF : Finset Str),
      scanFrom idx cf pages refs = some refsF → refs ⊆ refsF := by
  intro pages
  induction pages with
  | nil =>
    intro refs refsF h
    simp only [scanFrom, Option.some.injEq] at h
    rw [h]
  | cons p ps ih =>
    intro refs refsF h
    simp only [scanFrom] at h
    cases hrc : render_children idx 0 0 cf (pchildren p) refs false with
    | none => simp [hrc] at h
    | some r =>
      obtain ⟨L, refs₁⟩ := r
      simp only [hrc] at h
      exact Finset.Subset.trans (rc_go_mono hrc) (ih refs₁ refsF h)

/-- C1 (amended).  Reference discovery is sound for the occurrences the
scanning search *selects*: after the scanning pass over every page, every id
that `find_blockrefs` selected while scanning some block's text (leftmost
embed match in the unscanned remainder if any, else leftmost mention, else
leftmost plain reference, the cursor then jumping just past the selected id)
and whose target is indexed is a member of `referenced_uids`.  (The original
"every well-formed markup occurrence" claim is false: a plain reference that
sits before a selected embed-form match — or overlaps a previously selected
match — is skipped by the cursor and never discovered, see the
counterexample.) -/
theorem spec_C1_thm (pages : List PPage) (idx : Dict) (cf : Nat)
    (refsF : Finset Str) (h : scanAll idx cf pages = some refsF) :
    ∀ p ∈ pages, ∀ b ∈ preE (pchildren p), ∀ u ∈ selUids b.str,
      (idx u).isSome → u ∈ refsF := by
  have main : ∀ (ps : List PPage) (refs₀ : Finset Str),
      scanFrom idx cf ps refs₀ = some refsF →
      ∀ p ∈ ps, ∀ b ∈ preE (pchildren p), ∀ u ∈ selUids b.str,
        (idx u).isSome → u ∈ refsF := by
    intro ps
    induction ps with
    | nil => intro refs₀ h' p hp; cases hp
    | cons q qs ih =>
      intro refs₀ h' p hp b hb u hu hidx
      simp only [scanFrom] at h'
      cases hrc : render_children idx 0 0 cf (pchildren q) refs₀ false with
      | none => simp [hrc] at h'
      | some r =>
        obtain ⟨L, refs₁⟩ := r
        simp only [hrc] at h'
        rcases List.mem_cons.mp hp with rfl | hp'
        · have hin : u ∈ refs₁ :=
            rc_go_cov idx 0 0 cf [Item.blocks (pchildren p)] 0 refs₀ L refs₁
              hrc (pchildren p) (List.mem_cons_self _ _) b hb u hu hidx
          exact scanFrom_mono idx cf qs refs₁ refsF h' hin
        · exact ih refs₁ h' p hp' b hb u hu hidx
  exact main pages ∅ h

/-- C1 counterexample.  Block `R`'s text `strW` holds a well-formed
plain-reference markup at position 0 whose 9-character id `bbbbbbbbb` equals
indexed block `B`'s id, yet after the scanning pass over every page of the
document, `bbbbbbbbb` is *not* a member of `referenced_uids`: the scanner's
embed-priority search selected the later embed and jumped the cursor past
the plain reference. -/
theorem spec_C1_cex :
    matchAt refShape strW 0 = true
    ∧ mUid strW ⟨.ref, 0⟩ = "bbbbbbbbb".data
    ∧ (idxD "bbbbbbbbb".data).isSome = true
    ∧ (scanAll idxD 3 docD).map (fun r => decide ("bbbbbbbbb".data ∈ r))
        = some false := by
  decide

theorem spec_C1_witness :
    ∃ refsF, scanAll idxD 3 docD = some refsF ∧ "ccccccccc".data ∈ refsF := by
  refine ⟨_, rfl, ?_⟩
  refine spec_C1_thm docD idxD 3 _ rfl pageP (by simp [docD])
    (EBlock.mk "rrrrrrrrr".data strW none [] "P".data) ?_
    "ccccccccc".data ?_ ?_
  · simp [pchildren, pageP, extendBlocks, extendBlock, blkRb, blkBb, blkCb,
      preE_cons, preE, EBlock.children]
  · decide
  · decide

theorem spec_C4_witness :
    (0 : Nat) ≤ 0 ∧ (0 : Nat) < 14
    ∧ matchAt refShape strW 0 = true
    ∧ matchAt embedShape strW 14 = true
    ∧ (∀ k, k < 14 → (0 : Nat) ≤ k → matchAt embedShape strW k = false)
    ∧ find_blockrefs strW 0 = (some ⟨.embed, 14⟩, true) := by
  refine ⟨Nat.le_refl 0, by decide, by decide, by decide, by decide, ?_⟩
  exact spec_C4_thm strW 0 0 14 (by decide) (by decide)
    (Or.inl (by decide)) (by decide) (by decide)
